import Mathlib

/-!
Verification model of the marker-based code-region lifecycle manager in
`src/extension.ts` of the `ts-function-run-mock-ai` VS Code extension.

Document text is modelled as `List Char` (the `\n`-joined document string).
The JavaScript regular-expression scans of `CodelensProvider`
(`hasGeneratedCode`, `getFunctionMarkerRange`, `getAllMarkerRanges`,
`getFunctionNameFromMarker`, `isCodeCommented`) are embedded as executable
character-list scanners.  Function names reaching these scanners are produced
by captures of `[a-zA-Z0-9_]+`, so the interpolated name inside the regex
patterns behaves as a literal string; the scanners below implement exactly
that literal-pattern semantics.

The in-memory lifecycle state (`processingFunctions`, `executedFunctions`,
`commentedCode`) is the `Store` structure, and the three commands
(`function-run.runFunction`, `function-run.stopQuokka`,
`function-run.removeGeneratedCode`) are embedded as state-transition
functions that also report the user notices and Quokka runner invocations
they emit.
-/

namespace FnRun

abbrev Text := List Char

/-- JavaScript whitespace characters relevant to the model (`\s`, `trim`,
`trimStart` all treat these as whitespace). -/
def isWsChar (c : Char) : Bool :=
  c = ' ' || c = '\t' || c = '\n' || c = '\r'

/-- Characters matched by the `[a-zA-Z0-9_]` class used for function names. -/
def isWordChar (c : Char) : Bool :=
  ('a' ≤ c && c ≤ 'z') || ('A' ≤ c && c ≤ 'Z') || ('0' ≤ c && c ≤ '9') || c = '_'

/-- Split a character list at newline characters, like `text.split('\n')`. -/
def splitNl : Text → List Text
  | [] => [[]]
  | c :: t =>
    if c = '\n' then [] :: splitNl t
    else
      match splitNl t with
      | [] => [[c]]
      | h :: r => (c :: h) :: r

/-- Join lines with newline characters, like `lines.join('\n')`. -/
def joinNl : List Text → Text
  | [] => []
  | [l] => l
  | l :: ls => l ++ '\n' :: joinNl ls

/-- `line.trimStart()`. -/
def trimStart (l : Text) : Text := l.dropWhile isWsChar

/-- `line.trim() === ''`. -/
def isBlank (l : Text) : Bool := l.all isWsChar

/-- The common core of both marker literals. -/
def coreLit : Text := "FUNCTION-RUN-GENERATED-CODE".data

/-- The substring checked by `line.includes('FUNCTION-RUN-GENERATED-CODE-START:')`. -/
def startCore : Text := "FUNCTION-RUN-GENERATED-CODE-START:".data

/-- The substring checked by `line.includes('FUNCTION-RUN-GENERATED-CODE-END:')`. -/
def endCore : Text := "FUNCTION-RUN-GENERATED-CODE-END:".data

/-- The tagged start-marker literal `// FUNCTION-RUN-GENERATED-CODE-START:<name>`. -/
def startPat (name : Text) : Text := "// FUNCTION-RUN-GENERATED-CODE-START:".data ++ name

/-- The tagged end-marker literal `// FUNCTION-RUN-GENERATED-CODE-END:<name>`. -/
def endPat (name : Text) : Text := "// FUNCTION-RUN-GENERATED-CODE-END:".data ++ name

/-- The untagged start-marker literal used by `getAllMarkerRanges`. -/
def startLitNC : Text := "// FUNCTION-RUN-GENERATED-CODE-START".data

/-- The untagged end-marker literal used by `getAllMarkerRanges`. -/
def endLitNC : Text := "// FUNCTION-RUN-GENERATED-CODE-END".data

/-- Index of the first occurrence of `p` as a contiguous sublist of `t`
(the offset a JavaScript regex search for the literal `p` would report). -/
def firstOccur (p : Text) : Text → Option Nat
  | [] => if p.isPrefixOf ([] : Text) then some 0 else none
  | c :: t =>
    if p.isPrefixOf (c :: t) then some 0
    else (firstOccur p (c :: t).tail).map (· + 1)

/-- `text.includes(p)`: decidable contiguous-substring test. -/
def containsSub (p l : Text) : Bool := (firstOccur p l).isSome

/-- Index of the first newline, `text.indexOf('\n')` restricted to the uses
below (always guarded by the presence of a newline). -/
def nlIdx (l : Text) : Nat := (l.takeWhile (fun c => c ≠ '\n')).length

/-- `(t.drop s).take (e - s)`: the text of the character span `[s, e)`,
as returned by `document.getText(range)`. -/
def extractText (t : Text) (s e : Nat) : Text := (t.drop s).take (e - s)

/-- The lines of a region text strictly between its start-marker line and its
end-marker line: the region's contained body. -/
def innerLines (r : Text) : List Text := ((splitNl r).drop 1).dropLast

/-- A piece of text free of the marker core `FUNCTION-RUN-GENERATED-CODE`.
Ordinary user code and generated call expressions satisfy this; it is the
well-formedness condition under which marker scans are unambiguous. -/
def Clean (t : Text) : Prop := ¬ coreLit <:+: t

instance : DecidablePred Clean := fun t =>
  inferInstanceAs (Decidable (¬ coreLit <:+: t))

/-- The text matched by the tagged-region pattern in a canonical region:
`// ...START:<name>\n<mid>\n<indent2>// ...END:<name>`. -/
def regionCore (name mid indent2 : Text) : Text :=
  startPat name ++ '\n' :: mid ++ '\n' :: indent2 ++ endPat name

/-- The canonical region block between (and including) its marker lines,
as the insert path of `function-run.runFunction` lays it out. -/
def mkRegion (indent1 name mid indent2 : Text) : Text :=
  indent1 ++ regionCore name mid indent2

/--
Attempt to match the tagged-region regular expression
`// FUNCTION-RUN-GENERATED-CODE-START:<name>\s*\n[\s\S]*?// FUNCTION-RUN-GENERATED-CODE-END:<name>`
starting exactly at offset `s` of `t`; returns the end offset of the match.
The `\s*\n` part succeeds exactly when the maximal whitespace run after the
start tag contains a newline, and the lazy `[\s\S]*?` selects the first
occurrence of the end literal after that newline.
-/
def matchTaggedAt (name : Text) (t : Text) (s : Nat) : Option Nat :=
  let u := t.drop s
  if (startPat name).isPrefixOf u then
    let u1 := u.drop (startPat name).length
    if (u1.takeWhile isWsChar).contains '\n' then
      let k := nlIdx u1
      match firstOccur (endPat name) (u1.drop (k + 1)) with
      | some j => some (s + (startPat name).length + k + 1 + j + (endPat name).length)
      | none => none
    else none
  else none

/-- Scan offsets `s, s+1, ...` (up to `fuel` attempts) for the first offset at
which `f` matches, mirroring how a JavaScript global regex `exec` finds its
leftmost match at or after `lastIndex`. -/
def scanFrom (f : Nat → Option Nat) : Nat → Nat → Option (Nat × Nat)
  | 0, _ => none
  | fuel + 1, s =>
    match f s with
    | some e => some (s, e)
    | none => scanFrom f fuel (s + 1)

/-- `CodelensProvider.getFunctionMarkerRange`: the span of the first match of
the tagged-region pattern for `name`, or `none`. -/
def getFunctionMarkerRange (t : Text) (name : Text) : Option (Nat × Nat) :=
  scanFrom (matchTaggedAt name t) (t.length + 1) 0

/-- `CodelensProvider.hasGeneratedCode`: `markerRegex.test(text)` for the same
tagged pattern — true exactly when the pattern matches somewhere. -/
def hasGeneratedCode (t : Text) (name : Text) : Bool :=
  (List.range (t.length + 1)).any (fun s => (matchTaggedAt name t s).isSome)

/--
Attempt to match the generic (tag-optional) region pattern of
`getAllMarkerRanges`,
`// FUNCTION-RUN-GENERATED-CODE-START(?::([^\s]*))?\s*\n[\s\S]*?// FUNCTION-RUN-GENERATED-CODE-END(?::([^\s]*))?`,
starting exactly at offset `s`; returns the end offset.  The optional tag
consumes a `:` followed by the maximal non-whitespace run.
-/
def matchAnyAt (t : Text) (s : Nat) : Option Nat :=
  let u := t.drop s
  if startLitNC.isPrefixOf u then
    let u0 := u.drop startLitNC.length
    let tagLen : Nat :=
      match u0 with
      | c :: rest => if c = ':' then 1 + (rest.takeWhile (fun c => !isWsChar c)).length else 0
      | [] => 0
    let u1 := u0.drop tagLen
    if (u1.takeWhile isWsChar).contains '\n' then
      let k := nlIdx u1
      match firstOccur endLitNC (u1.drop (k + 1)) with
      | some j =>
        let afterEnd := u1.drop (k + 1 + j + endLitNC.length)
        let endTagLen : Nat :=
          match afterEnd with
          | c :: rest => if c = ':' then 1 + (rest.takeWhile (fun c => !isWsChar c)).length else 0
          | [] => 0
        some (s + startLitNC.length + tagLen + k + 1 + j + endLitNC.length + endTagLen)
      | none => none
    else none
  else none

/-- Auxiliary loop of `getAllMarkerRanges`: repeatedly find the next match at
or after `s` and continue from its end offset, like a `while exec` loop on a
global regex. -/
def allRangesGo (t : Text) : Nat → Nat → List (Nat × Nat)
  | 0, _ => []
  | fuel + 1, s =>
    match scanFrom (matchAnyAt t) (t.length + 1 - s) s with
    | none => []
    | some (s', e) => (s', e) :: allRangesGo t fuel e

/-- `CodelensProvider.getAllMarkerRanges`: all (tagged or legacy untagged)
region spans, found by a left-to-right global-regex scan. -/
def getAllMarkerRanges (t : Text) : List (Nat × Nat) :=
  allRangesGo t (t.length + 1) 0

/-- Scanner behind `getFunctionNameFromMarker`: first position where the
tagged start literal is followed by at least one word character; the captured
tag is the maximal word-character run. -/
def findNameTag : Text → Option Text
  | [] => none
  | c :: rest =>
    if ("// FUNCTION-RUN-GENERATED-CODE-START:".data).isPrefixOf (c :: rest) then
      let tag := ((c :: rest).drop ("// FUNCTION-RUN-GENERATED-CODE-START:".data).length).takeWhile
        isWordChar
      if tag.isEmpty then findNameTag rest else some tag
    else findNameTag rest

/-- `CodelensProvider.getFunctionNameFromMarker`: first match of
`\/\/ FUNCTION-RUN-GENERATED-CODE-START:([a-zA-Z0-9_]+)` in the region text,
returning the captured name. -/
def getFunctionNameFromMarker (regionText : Text) : Option Text :=
  findNameTag regionText

/-- A line skipped by the comment transformation of `function-run.stopQuokka`
(marker lines, already-commented lines, blank lines). -/
def skipCommentLine (l : Text) : Bool :=
  containsSub startCore l || containsSub endCore l ||
    "//".data.isPrefixOf (trimStart l) || isBlank l

/-- One line of the `commentedLines` map in `function-run.stopQuokka`:
`line.replace(/^(\s*)/, '$1// ')` on non-marker, non-blank, not-already-
commented lines. -/
def commentLine (l : Text) : Text :=
  if skipCommentLine l then l
  else l.takeWhile isWsChar ++ '/' :: '/' :: ' ' :: l.dropWhile isWsChar

/-- One line of the `uncommentedLines` map in `function-run.runFunction`:
`line.replace(/^(\s*)\/\/ /, '$1')` on marker-free commented lines; lines
whose comment prefix lacks the trailing space are left unchanged, exactly as
the regex leaves them. -/
def uncommentLine (l : Text) : Text :=
  if containsSub startCore l || containsSub endCore l ||
      !("//".data.isPrefixOf (trimStart l)) || isBlank l then l
  else
    let rest := l.dropWhile isWsChar
    if ('/' :: '/' :: ' ' :: []).isPrefixOf rest then
      l.takeWhile isWsChar ++ rest.drop 3
    else l

/-- The comment transformation applied to a whole region text. -/
def commentText (t : Text) : Text := joinNl ((splitNl t).map commentLine)

/-- The uncomment transformation applied to a whole region text. -/
def uncommentText (t : Text) : Text := joinNl ((splitNl t).map uncommentLine)

/-- The "skip if already fully commented" test of `function-run.stopQuokka`:
every line of the region text is blank, already commented, or a marker line. -/
def regionFullyCommented (regionText : Text) : Bool :=
  (splitNl regionText).all skipCommentLine

/-- `CodelensProvider.isCodeCommented`: look up the tagged region for `name`;
if absent, `false`; otherwise every content line (excluding marker lines and
blank lines) starts with `//` after leading whitespace. -/
def isCodeCommented (t : Text) (name : Text) : Bool :=
  match getFunctionMarkerRange t name with
  | none => false
  | some (s, e) =>
    let lines := splitNl (extractText t s e)
    let contentLines := lines.filter (fun l =>
      !containsSub startCore l && !containsSub endCore l && !isBlank l)
    contentLines.all (fun l => "//".data.isPrefixOf (trimStart l))

/-! ## Region Store (`CodelensProvider` in-memory state) -/

/-- The per-process lifecycle state of `CodelensProvider`:
`processingFunctions : Set<string>`, `executedFunctions : Set<string>`, and
`commentedCode : Map<string, boolean>`, all keyed by
`fileName + "|" + functionName`.  Sets are modelled as duplicate-free lists
(insertion checks membership, as `Set.add` does). -/
structure Store where
  processing : List String
  executed : List String
  commented : List (String × Bool)
deriving DecidableEq, Repr

/-- The `${fileName}|${functionName}` key. -/
def storeKey (file name : String) : String := file ++ "|" ++ name

/-- `CodelensProvider.isProcessing`. -/
def Store.isProcessing (st : Store) (key : String) : Bool :=
  st.processing.contains key

/-- `CodelensProvider.hasBeenExecuted`. -/
def Store.hasBeenExecuted (st : Store) (key : String) : Bool :=
  st.executed.contains key

/-- `CodelensProvider.startProcessing` (`processingFunctions.add(key)`). -/
def Store.startProcessing (st : Store) (key : String) : Store :=
  if st.processing.contains key then st
  else { st with processing := key :: st.processing }

/-- `CodelensProvider.endProcessing`: removes from `processingFunctions` and
adds to `executedFunctions`. -/
def Store.endProcessing (st : Store) (key : String) : Store :=
  { st with
    processing := st.processing.erase key
    executed := if st.executed.contains key then st.executed else key :: st.executed }

/-- `CodelensProvider.removeFromExecuted`. -/
def Store.removeFromExecuted (st : Store) (key : String) : Store :=
  { st with executed := st.executed.erase key }

/-- `CodelensProvider.markCodeAsCommented` (`commentedCode.set(key, b)`). -/
def Store.markCommented (st : Store) (key : String) (b : Bool) : Store :=
  { st with commented := (key, b) :: st.commented.filter (fun p => p.1 ≠ key) }

/-! ## Code Generator boundary (`askAIForFunctionCall`) -/

/-- The possible outcomes of the OpenAI call inside `askAIForFunctionCall`:
no credential, the call threw, a response without content, a response whose
content fails `JSON.parse`, or a parsed `code` field. -/
inductive AIOutcome where
  | missingKey
  | threw
  | noContent
  | unparsable
  | parsed (code : String)
deriving DecidableEq, Repr

/-- `askAIForFunctionCall`: total — every failure path returns a fallback
call-expression string instead of propagating the error. -/
def askAIForFunctionCall (functionName : String) (o : AIOutcome) : String :=
  match o with
  | .missingKey =>
    "(async () => \x7b console.log(await " ++ functionName ++
      "(/* OpenAI API key not provided */)); \x7d)();"
  | .threw =>
    "(async () => \x7b console.log(await " ++ functionName ++ "()); \x7d)();"
  | .noContent =>
    "(async () => \x7b console.log(await " ++ functionName ++
      "(/* AI failed to generate params */)); \x7d)();"
  | .unparsable =>
    "(async () => \x7b console.log(await " ++ functionName ++
      "(/* Error parsing AI response */)); \x7d)();"
  | .parsed code => code

/-! ## Command models -/

/-- Result of a command: final document text, final store, the user-visible
notices shown, and the number of Quokka "run file" / "stop all" invocations. -/
structure CmdResult where
  doc : Text
  store : Store
  notices : List String
  runnerRuns : Nat
  runnerStops : Nat
deriving DecidableEq, Repr

/-- Character offset of the start of line `k` (`document.offsetAt(new Position(k, 0))`). -/
def lineStartOffset (t : Text) (k : Nat) : Nat :=
  ((splitNl t).take k).foldl (fun acc l => acc + l.length + 1) 0

/-- The text of line `k` (`document.lineAt(k).text`). -/
def lineText (t : Text) (k : Nat) : Text := ((splitNl t).drop k).headD []

/-- `document.lineAt(lineNumber).text.match(/^\s*/)?.[0] || ''`. -/
def indentOf (t : Text) (k : Nat) : Text := (lineText t k).takeWhile isWsChar

/-- The freshly inserted block of `function-run.runFunction` (regenerate path,
no existing region): markers around the indented generated code plus a
trailing blank line. -/
def codeWithMarkers (indent name code : Text) : Text :=
  indent ++ startPat name ++ '\n' :: (indent ++ code) ++
    '\n' :: (indent ++ endPat name) ++ '\n' :: '\n' :: []

/-- The replacement block used when markers already exist (no extra blank
line). -/
def codeWithMarkersNoExtraLine (indent name code : Text) : Text :=
  indent ++ startPat name ++ '\n' :: (indent ++ code) ++
    '\n' :: (indent ++ endPat name) ++ '\n' :: []

/--
`function-run.runFunction` command.  Inputs beyond the document/store: the
`regenerate` flag of the lens, whether Quokka is installed, whether the
workspace-edit application succeeds (`editOk = false` models an edit-time
exception, caught by the outer handler), and the Code Generator outcome.
Every path after the guard funnels through `Store.endProcessing`, matching
the `finally`/`catch` structure of the source.
-/
def runFunction (doc : Text) (st : Store) (file name : String) (lineNumber : Nat)
    (regenerate quokkaOk editOk : Bool) (ai : AIOutcome) : CmdResult :=
  let key := storeKey file name
  if st.isProcessing key then
    ⟨doc, st, ["Already running " ++ name ++ ", please wait..."], 0, 0⟩
  else
    let st1 := st.startProcessing key
    if !quokkaOk then
      ⟨doc, st1.endProcessing key,
        ["Quokka.js extension is required to run functions."], 0, 0⟩
    else
      let markerRange := getFunctionMarkerRange doc name.data
      if !regenerate && markerRange.isSome && isCodeCommented doc name.data then
        -- uncomment the existing commented region, run, return (finally
        -- re-runs endProcessing; it is idempotent on the resulting store)
        match markerRange with
        | some (s, e) =>
          if editOk then
            let region := extractText doc s e
            let doc' := doc.take s ++ uncommentText region ++ doc.drop e
            let st2 := ((st1.markCommented key false).endProcessing key).endProcessing key
            ⟨doc', st2, ["Uncommented code for " ++ name], 1, 0⟩
          else
            ⟨doc, (st1.endProcessing key).endProcessing key,
              ["Error running function: edit failed"], 0, 0⟩
        | none => ⟨doc, st1, [], 0, 0⟩  -- unreachable: isSome was checked
      else
        if regenerate then
          let aiCode := (askAIForFunctionCall name ai).data
          let p := lineStartOffset doc lineNumber
          let indent := indentOf doc lineNumber
          if hasGeneratedCode doc name.data then
            match getFunctionMarkerRange doc name.data with
            | some (s, e) =>
              if editOk then
                let doc' := doc.take s ++ codeWithMarkersNoExtraLine indent name.data aiCode
                  ++ doc.drop e
                ⟨doc', st1.endProcessing key,
                  ["Generated parameters for " ++ name], 1, 0⟩
              else
                ⟨doc, (st1.endProcessing key).endProcessing key,
                  ["Error running function: edit failed"], 0, 0⟩
            | none =>
              -- unreachable: hasGeneratedCode and getFunctionMarkerRange agree
              ⟨doc, st1.endProcessing key,
                ["Generated parameters for " ++ name], 1, 0⟩
          else
            if editOk then
              let doc' := doc.take p ++ codeWithMarkers indent name.data aiCode ++ doc.drop p
              ⟨doc', st1.endProcessing key,
                ["Generated parameters for " ++ name], 1, 0⟩
            else
              ⟨doc, (st1.endProcessing key).endProcessing key,
                ["Error running function: edit failed"], 0, 0⟩
        else
          ⟨doc, st1.endProcessing key, ["Running " ++ name], 1, 0⟩

/--
`function-run.stopQuokka` command: stop all Quokka sessions (one runner stop),
then comment out every not-fully-commented marker region (edits are computed
against the pre-edit document and applied as one atomic batch, right-to-left
over the pairwise-disjoint spans), updating the store for every region whose
tag resolves.
-/
def stopQuokka (doc : Text) (st : Store) (file : String) : CmdResult :=
  let ranges := getAllMarkerRanges doc
  let step := ranges.foldl
    (fun (acc : List (Nat × Nat × Text) × Store) (r : Nat × Nat) =>
      let code := extractText doc r.1 r.2
      if regionFullyCommented code then acc
      else
        let newText := commentText code
        let st' :=
          match getFunctionNameFromMarker code with
          | some fn =>
            let key := storeKey file fn.asString
            (acc.2.markCommented key true).removeFromExecuted key
          | none => acc.2
        (acc.1 ++ [(r.1, r.2, newText)], st'))
    ([], st)
  let doc' := step.1.foldr (fun (ed : Nat × Nat × Text) (d : Text) =>
    d.take ed.1 ++ ed.2.2 ++ d.drop ed.2.1) doc
  let commentNotices :=
    if step.1.isEmpty then []
    else ["Commented out " ++ toString step.1.length ++ " generated code blocks"]
  ⟨doc', step.2, commentNotices ++ ["Stopped all Quokka sessions"], 0, 1⟩

/-- Legacy-region fallback of `function-run.removeGeneratedCode`: the first
generic marker range whose text contains a call `\b<name>(`. -/
def findLegacyRange (doc : Text) (name : Text) : Option (Nat × Nat) :=
  (getAllMarkerRanges doc).find? (fun r =>
    let code := extractText doc r.1 r.2
    (List.range (code.length + 1)).any (fun i =>
      (name ++ ['(']).isPrefixOf (code.drop i) &&
        (decide (i = 0) || !(isWordChar (code.getD (i - 1) ' ')))))

/--
`function-run.removeGeneratedCode` command: delete the function's tagged
region (or, as a legacy fallback, the first region whose body calls the
function), clear its executed flag, and then invoke the stop-all command
on the resulting document.
-/
def removeGeneratedCode (doc : Text) (st : Store) (file name : String) : CmdResult :=
  let key := storeKey file name
  let target :=
    match getFunctionMarkerRange doc name.data with
    | some r => some r
    | none => findLegacyRange doc name.data
  match target with
  | none => ⟨doc, st, ["No generated code found for " ++ name], 0, 0⟩
  | some (s, e) =>
    let doc1 := doc.take s ++ doc.drop e
    let st1 := st.removeFromExecuted key
    let stopRes := stopQuokka doc1 st1 file
    ⟨stopRes.doc, stopRes.store,
      ("Removed generated code for " ++ name) :: stopRes.notices,
      stopRes.runnerRuns, stopRes.runnerStops⟩

/-! ## Basic prefix/suffix/occurrence lemmas -/

theorem prefix_of_prefix_append {p a b : Text} (h : p <+: a ++ b)
    (hl : p.length ≤ a.length) : p <+: a := by
  have h1 : p = (a ++ b).take p.length := List.prefix_iff_eq_take.mp h
  rw [h1, List.take_append_of_le_length hl]
  exact List.take_prefix _ _

theorem infix_of_prefix_drop {p l : Text} {q : Nat} (h : p <+: l.drop q) :
    p <:+: l :=
  h.isInfix.trans (List.drop_suffix q l).isInfix

theorem infix_iff_exists_drop {p l : Text} :
    p <:+: l ↔ ∃ q, p <+: l.drop q := by
  constructor
  · intro h
    rcases List.infix_iff_prefix_suffix.mp h with ⟨u, hpu, hul⟩
    refine ⟨l.length - u.length, ?_⟩
    rwa [← List.suffix_iff_eq_drop.mp hul]
  · rintro ⟨q, h⟩
    exact infix_of_prefix_drop h

theorem prefix_drop_of_prefix {p l : Text} (k : Nat) (h : p <+: l) :
    p.drop k <+: l.drop k := by
  rcases h with ⟨r, rfl⟩
  rw [List.drop_append_eq_append_drop]
  exact List.prefix_append _ _

theorem firstOccur_eq_some {p l : Text} {j : Nat} :
    firstOccur p l = some j ↔
      (p <+: l.drop j ∧ ∀ i, i < j → ¬ p <+: l.drop i) := by
  induction l generalizing j with
  | nil =>
    simp only [firstOccur]
    by_cases hp : p = []
    · subst hp
      simp only [List.isPrefixOf_iff_prefix.symm]
      constructor
      · intro h
        split at h
        · cases h
          exact ⟨by simp, by omega⟩
        · simp_all
      · rintro ⟨-, h2⟩
        have hj : j = 0 := by
          by_contra hne
          exact h2 0 (by omega) (by simp)
        subst hj; simp
    · have : p.isPrefixOf ([] : Text) = false := by
        cases p with
        | nil => simp_all
        | cons c t => rfl
      rw [this]
      simp only [if_neg (by simp : ¬ (false = true))]
      constructor
      · intro h; cases h
      · rintro ⟨h1, -⟩
        rw [List.drop_nil] at h1
        exact absurd (List.prefix_nil.mp h1) hp
  | cons c t ih =>
    simp only [firstOccur, List.tail_cons]
    by_cases hpre : p <+: c :: t
    · rw [if_pos (List.isPrefixOf_iff_prefix.mpr hpre)]
      constructor
      · intro h
        cases h
        exact ⟨by simpa using hpre, by omega⟩
      · rintro ⟨-, h2⟩
        have hj : j = 0 := by
          by_contra hne
          exact h2 0 (by omega) (by simpa using hpre)
        subst hj; rfl
    · rw [if_neg (by simpa [List.isPrefixOf_iff_prefix] using hpre)]
      constructor
      · intro h
        rcases Option.map_eq_some'.mp h with ⟨j', hj', rfl⟩
        rcases ih.mp hj' with ⟨h1, h2⟩
        refine ⟨by simpa using h1, ?_⟩
        intro i hi
        cases i with
        | zero => simpa using hpre
        | succ i' =>
          simpa using h2 i' (by omega)
      · rintro ⟨h1, h2⟩
        cases j with
        | zero => exact absurd (by simpa using h1) hpre
        | succ j' =>
          have : firstOccur p t = some j' := by
            refine ih.mpr ⟨by simpa using h1, ?_⟩
            intro i hi
            simpa using h2 (i + 1) (by omega)
          rw [this]; rfl

theorem firstOccur_eq_none {p l : Text} :
    firstOccur p l = none ↔ ∀ i, ¬ p <+: l.drop i := by
  constructor
  · intro h i hp
    -- the set of occurrence indices is nonempty; find the least one
    by_cases hex : ∃ j, p <+: l.drop j ∧ ∀ i', i' < j → ¬ p <+: l.drop i'
    · rcases hex with ⟨j, h1, h2⟩
      rw [firstOccur_eq_some.mpr ⟨h1, h2⟩] at h
      cases h
    · have := Nat.find_spec (⟨i, hp⟩ : ∃ n, p <+: l.drop n)
      refine hex ⟨Nat.find (⟨i, hp⟩ : ∃ n, p <+: l.drop n), this, ?_⟩
      intro i' hi'
      exact Nat.find_min _ hi'
  · intro h
    cases hfo : firstOccur p l with
    | none => rfl
    | some j =>
      exact absurd (firstOccur_eq_some.mp hfo).1 (h j)

theorem containsSub_iff {p l : Text} : containsSub p l = true ↔ p <:+: l := by
  rw [containsSub, Option.isSome_iff_exists, infix_iff_exists_drop]
  constructor
  · rintro ⟨j, hj⟩
    exact ⟨j, (firstOccur_eq_some.mp hj).1⟩
  · rintro ⟨q, hq⟩
    have hex : ∃ n, p <+: l.drop n := ⟨q, hq⟩
    exact ⟨Nat.find hex, firstOccur_eq_some.mpr ⟨Nat.find_spec hex, fun i hi => Nat.find_min hex hi⟩⟩

theorem containsSub_false_iff {p l : Text} :
    containsSub p l = false ↔ ¬ p <:+: l := by
  rw [← containsSub_iff]
  cases containsSub p l <;> simp

theorem scanFrom_eq_some {f : Nat → Option Nat} {fuel s s' e : Nat} :
    scanFrom f fuel s = some (s', e) ↔
      (s ≤ s' ∧ s' < s + fuel ∧ f s' = some e ∧
        ∀ i, s ≤ i → i < s' → f i = none) := by
  induction fuel generalizing s with
  | zero =>
    simp only [scanFrom]
    constructor
    · intro h; cases h
    · rintro ⟨h1, h2, -, -⟩; omega
  | succ fuel ih =>
    simp only [scanFrom]
    cases hf : f s with
    | some e' =>
      constructor
      · intro h
        cases h
        exact ⟨le_rfl, by omega, hf, by omega⟩
      · rintro ⟨h1, -, h3, h4⟩
        have hs : s = s' := by
          by_contra hne
          rw [h4 s le_rfl (by omega)] at hf
          cases hf
        subst hs
        rw [hf] at h3
        cases h3
        rfl
    | none =>
      rw [ih]
      constructor
      · rintro ⟨h1, h2, h3, h4⟩
        refine ⟨by omega, by omega, h3, ?_⟩
        intro i hi1 hi2
        rcases Nat.eq_or_lt_of_le hi1 with rfl | hlt
        · exact hf
        · exact h4 i hlt hi2
      · rintro ⟨h1, h2, h3, h4⟩
        have hne : s ≠ s' := by
          rintro rfl
          rw [hf] at h3
          cases h3
        exact ⟨by omega, by omega, h3, fun i hi1 hi2 => h4 i (by omega) hi2⟩

/-- If a pattern `p` occurs (as a prefix of `L.drop q`) in `A ++ w ++ B`,
does not occur inside `A`, and no character of the "wall" `w` occurs in `p`,
then the occurrence starts after the wall. -/
theorem occ_wall {p A w B : Text} {q : Nat}
    (hzone : ∀ c ∈ w, c ∉ p)
    (hA : ¬ p <:+: A)
    (hne : w ≠ [])
    (h : p <+: (A ++ w ++ B).drop q) :
    A.length + w.length ≤ q := by
  have hpne : p ≠ [] := by
    rintro rfl
    exact hA (List.nil_infix)
  by_contra hlt
  push_neg at hlt
  by_cases hcase : q + p.length ≤ A.length
  · apply hA
    apply infix_of_prefix_drop (q := q)
    have hqA : q ≤ A.length := by
      have : 0 < p.length := List.length_pos.mpr hpne
      omega
    have hdrop : (A ++ w ++ B).drop q = A.drop q ++ (w ++ B) := by
      rw [List.append_assoc, List.drop_append_eq_append_drop,
        Nat.sub_eq_zero_of_le hqA, List.drop_zero]
    rw [hdrop] at h
    exact prefix_of_prefix_append h (by simp [List.length_drop]; omega)
  · push_neg at hcase
    have hwpos : 0 < w.length := List.length_pos.mpr hne
    have hppos : 0 < p.length := List.length_pos.mpr hpne
    set L := A ++ w ++ B with hL
    set j := max q A.length with hj
    have hqj : q ≤ j := le_max_left _ _
    have hAj : A.length ≤ j := le_max_right _ _
    have hjlt : j < q + p.length := by omega
    have hjzone : j < A.length + w.length := by omega
    have hn : j - q < p.length := by omega
    have hdd : p.drop (j - q) <+: L.drop j := by
      have hstep := prefix_drop_of_prefix (j - q) h
      rw [List.drop_drop] at hstep
      rwa [(by omega : q + (j - q) = j)] at hstep
    obtain ⟨c, ptl, hptl⟩ : ∃ c ptl, p.drop (j - q) = c :: ptl := by
      cases hd : p.drop (j - q) with
      | nil =>
        exfalso
        have hlen0 := congrArg List.length hd
        rw [List.length_drop] at hlen0
        simp at hlen0
        omega
      | cons c ptl => exact ⟨c, ptl, rfl⟩
    have hcp : c ∈ p :=
      (List.drop_suffix (j - q) p).subset (hptl ▸ List.mem_cons_self c ptl)
    have hLdrop : L.drop j = w.drop (j - A.length) ++ B := by
      rw [hL, List.append_assoc, List.drop_append_eq_append_drop,
        List.drop_eq_nil_of_le (by omega), List.nil_append,
        List.drop_append_eq_append_drop,
        (by omega : j - A.length - w.length = 0), List.drop_zero]
    obtain ⟨d, wtl, hwtl⟩ : ∃ d wtl, w.drop (j - A.length) = d :: wtl := by
      cases hd : w.drop (j - A.length) with
      | nil =>
        exfalso
        have hlen0 := congrArg List.length hd
        rw [List.length_drop] at hlen0
        simp at hlen0
        omega
      | cons d wtl => exact ⟨d, wtl, rfl⟩
    have hdw : d ∈ w :=
      (List.drop_suffix (j - A.length) w).subset (hwtl ▸ List.mem_cons_self d wtl)
    have hcd : c = d := by
      rcases hdd with ⟨r, hr⟩
      rw [hptl, hLdrop, hwtl] at hr
      rw [List.cons_append, List.cons_append] at hr
      exact ((List.cons.injEq ..).mp hr.symm).1.symm
    exact hzone d hdw (hcd ▸ hcp)

/-- Specialisation of `occ_wall` to walls followed by a `// ` comment prefix:
an occurrence of a slash-free, whitespace-free pattern in
`A ++ w ++ "// " ++ D` (with `w` whitespace and no occurrence inside `A`)
starts past the `// `. -/
theorem occ_slashes {p A w D : Text} {q : Nat}
    (hp : ∀ c ∈ p, isWsChar c = false ∧ c ≠ '/')
    (hw : ∀ c ∈ w, isWsChar c = true)
    (hA : ¬ p <:+: A)
    (h : p <+: (A ++ w ++ '/' :: '/' :: ' ' :: D).drop q) :
    A.length + w.length + 3 ≤ q := by
  have hshape : A ++ w ++ '/' :: '/' :: ' ' :: D =
      A ++ (w ++ ['/', '/', ' ']) ++ D := by
    simp [List.append_assoc]
  rw [hshape] at h
  have := occ_wall (p := p) (A := A) (w := w ++ ['/', '/', ' ']) (B := D)
    (fun c hc hcp => by
      rcases List.mem_append.mp hc with hcw | hcs
      · have := hw c hcw
        have := (hp c hcp).1
        simp_all
      · have : c = '/' ∨ c = ' ' := by
          by_contra hc2
          push_neg at hc2
          simp [List.mem_cons, hc2.1, hc2.2] at hcs
        rcases this with rfl | rfl
        · exact (hp _ hcp).2 rfl
        · have := (hp _ hcp).1
          simp [isWsChar] at this)
    hA (by simp) h
  simpa [List.length_append] using this

theorem coreLit_chars : ∀ c ∈ coreLit, isWsChar c = false ∧ c ≠ '/' := by decide

theorem coreLit_ne_nil : coreLit ≠ [] := by decide

theorem Clean.of_infix {t u : Text} (h : t <:+: u) (hu : Clean u) : Clean t :=
  fun hc => hu (hc.trans h)

theorem clean_nil : Clean [] := by
  intro h
  exact coreLit_ne_nil (List.infix_nil.mp h)

/-- Concatenating marker-free pieces around a nonempty whitespace wall stays
marker-free. -/
theorem clean_sandwich {A w B : Text} (hA : Clean A) (hB : Clean B)
    (hw : ∀ c ∈ w, isWsChar c = true) (hne : w ≠ []) :
    Clean (A ++ w ++ B) := by
  intro hinf
  rcases infix_iff_exists_drop.mp hinf with ⟨q, hq⟩
  have hwall := occ_wall (p := coreLit) (A := A) (w := w) (B := B)
    (fun c hc hcp => by
      have h1 := hw c hc
      have h2 := (coreLit_chars c hcp).1
      simp_all)
    hA hne hq
  have hdrop : (A ++ w ++ B).drop q = B.drop (q - (A ++ w).length) := by
    rw [List.drop_append_eq_append_drop,
      List.drop_eq_nil_of_le (by simp [List.length_append]; omega), List.nil_append]
  rw [hdrop] at hq
  exact hB (infix_of_prefix_drop hq)

/-! ## Line splitting and joining -/

theorem splitNl_ne_nil (t : Text) : splitNl t ≠ [] := by
  cases t with
  | nil => simp [splitNl]
  | cons c t =>
    simp only [splitNl]
    split
    · simp
    · split <;> simp

theorem joinNl_cons {l : Text} {ls : List Text} (h : ls ≠ []) :
    joinNl (l :: ls) = l ++ '\n' :: joinNl ls := by
  cases ls with
  | nil => exact absurd rfl h
  | cons x xs => rfl

theorem joinNl_cons_cons (c : Char) (h : Text) (r : List Text) :
    joinNl ((c :: h) :: r) = c :: joinNl (h :: r) := by
  cases r with
  | nil => rfl
  | cons x xs =>
    have h1 : joinNl ((c :: h) :: x :: xs) = (c :: h) ++ '\n' :: joinNl (x :: xs) :=
      joinNl_cons (by simp)
    have h2 : joinNl (h :: x :: xs) = h ++ '\n' :: joinNl (x :: xs) :=
      joinNl_cons (by simp)
    rw [h1, h2]
    rfl

theorem joinNl_splitNl (t : Text) : joinNl (splitNl t) = t := by
  induction t with
  | nil => rfl
  | cons c t ih =>
    simp only [splitNl]
    by_cases hc : c = '\n'
    · subst hc
      rw [if_pos rfl, joinNl_cons (splitNl_ne_nil t), ih]
      rfl
    · rw [if_neg hc]
      cases hsp : splitNl t with
      | nil => exact absurd hsp (splitNl_ne_nil t)
      | cons h r =>
        rw [hsp] at ih
        rw [joinNl_cons_cons, ih]

theorem splitNl_append_nl (a b : Text) :
    splitNl (a ++ '\n' :: b) = splitNl a ++ splitNl b := by
  induction a with
  | nil =>
    simp only [List.nil_append, splitNl, if_pos rfl]
    rfl
  | cons c a ih =>
    simp only [List.cons_append, splitNl, List.append_eq]
    by_cases hc : c = '\n'
    · subst hc
      rw [if_pos rfl, if_pos rfl, ih]
      rfl
    · rw [if_neg hc, if_neg hc, ih]
      cases hsp : splitNl a with
      | nil => exact absurd hsp (splitNl_ne_nil a)
      | cons h r => simp

theorem splitNl_no_nl {a : Text} (h : '\n' ∉ a) : splitNl a = [a] := by
  induction a with
  | nil => rfl
  | cons c a ih =>
    simp only [splitNl]
    rw [if_neg (by intro hc; exact h (hc ▸ List.mem_cons_self c a)),
      ih (fun hm => h (List.mem_cons_of_mem c hm))]

theorem mem_splitNl_no_nl {t : Text} : ∀ l ∈ splitNl t, '\n' ∉ l := by
  induction t with
  | nil =>
    intro l hl
    simp only [splitNl, List.mem_singleton] at hl
    subst hl
    simp
  | cons c t ih =>
    intro l hl
    simp only [splitNl] at hl
    by_cases hc : c = '\n'
    · rw [if_pos hc] at hl
      rcases List.mem_cons.mp hl with rfl | hm
      · simp
      · exact ih l hm
    · rw [if_neg hc] at hl
      cases hsp : splitNl t with
      | nil => exact absurd hsp (splitNl_ne_nil t)
      | cons h r =>
        rw [hsp] at hl
        rcases List.mem_cons.mp hl with rfl | hm
        · intro hmem
          rcases List.mem_cons.mp hmem with rfl | hm2
          · exact hc rfl
          · exact ih h (hsp ▸ List.mem_cons_self h r) hm2
        · exact ih l (hsp ▸ List.mem_cons_of_mem h hm)

theorem splitNl_joinNl {ls : List Text} (h : ∀ l ∈ ls, '\n' ∉ l)
    (hne : ls ≠ []) : splitNl (joinNl ls) = ls := by
  induction ls with
  | nil => exact absurd rfl hne
  | cons l ls ih =>
    cases ls with
    | nil =>
      simp only [joinNl]
      exact splitNl_no_nl (h l (List.mem_cons_self l []))
    | cons x xs =>
      rw [joinNl_cons (by simp), splitNl_append_nl,
        splitNl_no_nl (h l (List.mem_cons_self l _)),
        ih (fun m hm => h m (List.mem_cons_of_mem l hm)) (by simp)]
      rfl

theorem joinNl_append {xs ys : List Text} (hx : xs ≠ []) (hy : ys ≠ []) :
    joinNl (xs ++ ys) = joinNl xs ++ '\n' :: joinNl ys := by
  induction xs with
  | nil => exact absurd rfl hx
  | cons l ls ih =>
    cases ls with
    | nil =>
      rw [List.singleton_append, joinNl_cons hy]
      rfl
    | cons x xs' =>
      have h1 : joinNl (l :: (x :: xs' ++ ys)) = l ++ '\n' :: joinNl (x :: xs' ++ ys) :=
        joinNl_cons (by simp)
      have h2 : joinNl (x :: xs' ++ ys) = joinNl (x :: xs') ++ '\n' :: joinNl ys :=
        ih (by simp)
      have h3 : joinNl (l :: x :: xs') = l ++ '\n' :: joinNl (x :: xs') :=
        joinNl_cons (by simp)
      rw [List.cons_append, h1, h2, h3, List.append_assoc]
      rfl

/-! ## Marker-literal decompositions -/

theorem startPat_decomp (name : Text) :
    startPat name = '/' :: '/' :: ' ' :: (coreLit ++ ("-START:".data ++ name)) := rfl

theorem endPat_decomp (name : Text) :
    endPat name = '/' :: '/' :: ' ' :: (coreLit ++ ("-END:".data ++ name)) := rfl

theorem startLitNC_decomp :
    startLitNC = '/' :: '/' :: ' ' :: (coreLit ++ ("-START".data ++ [])) := rfl

theorem endLitNC_decomp :
    endLitNC = '/' :: '/' :: ' ' :: (coreLit ++ ("-END".data ++ [])) := rfl

theorem startPat_eq_nc (name : Text) :
    startPat name = startLitNC ++ ':' :: name := rfl

theorem endPat_eq_nc (name : Text) :
    endPat name = endLitNC ++ ':' :: name := rfl

theorem startPat_core (name : Text) :
    startPat name = '/' :: '/' :: ' ' :: (startCore ++ name) := rfl

theorem endPat_core (name : Text) :
    endPat name = '/' :: '/' :: ' ' :: (endCore ++ name) := rfl

/-- An occurrence of a `// <coreLit>…` shaped pattern yields an occurrence of
`coreLit` three characters later. -/
theorem coreLit_after_pat {X t : Text} {i : Nat}
    (h : ('/' :: '/' :: ' ' :: (coreLit ++ X)) <+: t.drop i) :
    coreLit <+: t.drop (i + 3) := by
  have h3 := prefix_drop_of_prefix 3 h
  simp only [List.drop_succ_cons, List.drop_zero] at h3
  rw [List.drop_drop] at h3
  exact (List.prefix_append coreLit X).trans (by simpa [Nat.add_comm] using h3)

theorem drop_len_append {x y : Text} {n : Nat} (h : x.length = n) :
    (x ++ y).drop n = y := by
  subst h
  exact List.drop_left x y

theorem take_len_append {x y : Text} {n : Nat} (h : x.length = n) :
    (x ++ y).take n = x := by
  subst h
  exact List.take_left x y

theorem scanFrom_eq_none {f : Nat → Option Nat} {fuel s : Nat} :
    scanFrom f fuel s = none ↔ ∀ i, s ≤ i → i < s + fuel → f i = none := by
  induction fuel generalizing s with
  | zero => simp [scanFrom]; omega
  | succ fuel ih =>
    simp only [scanFrom]
    cases hf : f s with
    | some e' =>
      constructor
      · intro h; cases h
      · intro h
        rw [h s le_rfl (by omega)] at hf
        cases hf
    | none =>
      rw [ih]
      constructor
      · intro h i hi1 hi2
        rcases Nat.eq_or_lt_of_le hi1 with rfl | hlt
        · exact hf
        · exact h i (by omega) (by omega)
      · intro h i hi1 hi2
        exact h i (by omega) (by omega)

/-! ## Canonical-region matching -/

theorem regionCore_shape (name mid indent2 B : Text) :
    regionCore name mid indent2 ++ B =
      startPat name ++ '\n' :: (mid ++ '\n' :: indent2 ++ endPat name ++ B) := by
  simp [regionCore, List.append_assoc]

theorem matchTaggedAt_at_region {A indent1 name mid indent2 B : Text}
    (hmid : Clean mid)
    (hw2 : ∀ c ∈ indent2, isWsChar c = true) :
    matchTaggedAt name (A ++ indent1 ++ regionCore name mid indent2 ++ B)
        (A.length + indent1.length)
      = some (A.length + indent1.length + (regionCore name mid indent2).length) := by
  set t := A ++ indent1 ++ regionCore name mid indent2 ++ B with ht
  set REST := mid ++ '\n' :: indent2 ++ endPat name ++ B with hREST
  have hdrop : t.drop (A.length + indent1.length) = startPat name ++ '\n' :: REST := by
    rw [ht, List.append_assoc (A ++ indent1), drop_len_append (by simp),
      regionCore_shape]
  have hpre : (startPat name).isPrefixOf (t.drop (A.length + indent1.length)) = true := by
    rw [hdrop]
    exact List.isPrefixOf_iff_prefix.mpr (List.prefix_append _ _)
  have hu1 : (t.drop (A.length + indent1.length)).drop (startPat name).length
      = '\n' :: REST := by
    rw [hdrop, drop_len_append rfl]
  have hnl : (('\n' :: REST).takeWhile isWsChar).contains '\n' = true := by
    rw [List.takeWhile_cons, if_pos (by simp [isWsChar])]
    simp [List.contains_cons]
  have hidx : nlIdx ('\n' :: REST) = 0 := by
    simp [nlIdx, List.takeWhile_cons]
  have hfo : firstOccur (endPat name) REST
      = some (mid.length + indent2.length + 1) := by
    apply firstOccur_eq_some.mpr
    constructor
    · have h1 : REST.drop (mid.length + indent2.length + 1) = endPat name ++ B := by
        rw [hREST, List.append_assoc (mid ++ '\n' :: indent2),
          drop_len_append (by simp; omega)]
      rw [h1]
      exact List.prefix_append _ _
    · intro i hi hpre2
      have hc : coreLit <+: REST.drop (i + 3) := by
        rw [endPat_decomp] at hpre2
        exact coreLit_after_pat hpre2
      have hshape : REST = mid ++ ('\n' :: indent2) ++
          '/' :: '/' :: ' ' :: (coreLit ++ (("-END:".data ++ name) ++ B)) := by
        rw [hREST, endPat_decomp]
        simp [List.append_assoc]
      rw [hshape] at hc
      have := occ_slashes coreLit_chars
        (w := '\n' :: indent2)
        (by intro c hc2
            rcases List.mem_cons.mp hc2 with rfl | hm
            · simp [isWsChar]
            · exact hw2 c hm)
        hmid hc
      simp at this
      omega
  have hlen : (regionCore name mid indent2).length =
      (startPat name).length + 1 + mid.length + 1 + indent2.length + (endPat name).length := by
    simp [regionCore, List.length_append]
    omega
  unfold matchTaggedAt
  dsimp only
  rw [hpre, if_pos rfl, hu1, hnl, if_pos rfl, hidx]
  norm_num
  rw [hfo]
  simp only [Option.some.injEq, hlen]
  omega

theorem matchTaggedAt_before_region {A indent1 name name' mid indent2 B : Text}
    (hA : Clean A)
    (hw1 : ∀ c ∈ indent1, isWsChar c = true)
    {i : Nat} (hi : i < A.length + indent1.length) :
    matchTaggedAt name' (A ++ indent1 ++ regionCore name mid indent2 ++ B) i
      = none := by
  have hnp : (startPat name').isPrefixOf
      ((A ++ indent1 ++ regionCore name mid indent2 ++ B).drop i) = false := by
    cases hbe : (startPat name').isPrefixOf
        ((A ++ indent1 ++ regionCore name mid indent2 ++ B).drop i) with
    | false => rfl
    | true =>
      exfalso
      have hp := List.isPrefixOf_iff_prefix.mp hbe
      rw [startPat_decomp] at hp
      have hc := coreLit_after_pat hp
      have hshape : A ++ indent1 ++ regionCore name mid indent2 ++ B =
          A ++ indent1 ++ '/' :: '/' :: ' ' ::
            (coreLit ++ (("-START:".data ++ name) ++
              ('\n' :: (mid ++ '\n' :: indent2 ++ endPat name ++ B)))) := by
        have h0 : regionCore name mid indent2 ++ B =
            startPat name ++ '\n' :: (mid ++ '\n' :: indent2 ++ endPat name ++ B) :=
          regionCore_shape ..
        rw [List.append_assoc (A ++ indent1), h0, startPat_decomp]
        simp [List.append_assoc]
      rw [hshape] at hc
      have := occ_slashes coreLit_chars hw1 hA hc
      omega
  unfold matchTaggedAt
  dsimp only
  rw [hnp]
  simp

theorem mkRegion_assoc (A indent1 name mid indent2 B : Text) :
    A ++ mkRegion indent1 name mid indent2 ++ B
      = A ++ indent1 ++ regionCore name mid indent2 ++ B := by
  simp [mkRegion, List.append_assoc]

theorem getFunctionMarkerRange_canonical {A indent1 name mid indent2 B : Text}
    (hA : Clean A) (hmid : Clean mid)
    (hw1 : ∀ c ∈ indent1, isWsChar c = true)
    (hw2 : ∀ c ∈ indent2, isWsChar c = true) :
    getFunctionMarkerRange (A ++ indent1 ++ regionCore name mid indent2 ++ B) name
      = some (A.length + indent1.length,
          A.length + indent1.length + (regionCore name mid indent2).length) := by
  apply scanFrom_eq_some.mpr
  refine ⟨Nat.zero_le _, ?_, matchTaggedAt_at_region hmid hw2, ?_⟩
  · simp [List.length_append]
    omega
  · intro i h0 hlt
    exact matchTaggedAt_before_region hA hw1 hlt

theorem extractText_canonical {A indent1 name mid indent2 B : Text} :
    extractText (A ++ indent1 ++ regionCore name mid indent2 ++ B)
      (A.length + indent1.length)
      (A.length + indent1.length + (regionCore name mid indent2).length)
      = regionCore name mid indent2 := by
  unfold extractText
  rw [List.append_assoc (A ++ indent1), drop_len_append (by simp)]
  have h1 : A.length + indent1.length + (regionCore name mid indent2).length
      - (A.length + indent1.length) = (regionCore name mid indent2).length := by
    omega
  rw [h1, take_len_append rfl]

theorem matchTaggedAt_clean {t name : Text} (h : Clean t) (i : Nat) :
    matchTaggedAt name t i = none := by
  have hnp : (startPat name).isPrefixOf (t.drop i) = false := by
    cases hbe : (startPat name).isPrefixOf (t.drop i) with
    | false => rfl
    | true =>
      exfalso
      have hp := List.isPrefixOf_iff_prefix.mp hbe
      rw [startPat_decomp] at hp
      exact h (infix_of_prefix_drop (coreLit_after_pat hp))
  unfold matchTaggedAt
  dsimp only
  rw [hnp]
  simp

theorem matchAnyAt_clean {t : Text} (h : Clean t) (i : Nat) :
    matchAnyAt t i = none := by
  have hnp : startLitNC.isPrefixOf (t.drop i) = false := by
    cases hbe : startLitNC.isPrefixOf (t.drop i) with
    | false => rfl
    | true =>
      exfalso
      have hp := List.isPrefixOf_iff_prefix.mp hbe
      rw [startLitNC_decomp] at hp
      exact h (infix_of_prefix_drop (coreLit_after_pat hp))
  unfold matchAnyAt
  dsimp only
  rw [hnp]
  simp

theorem getFunctionMarkerRange_clean {t name : Text} (h : Clean t) :
    getFunctionMarkerRange t name = none := by
  apply scanFrom_eq_none.mpr
  intro i h1 h2
  exact matchTaggedAt_clean h i

theorem getAllMarkerRanges_clean {t : Text} (h : Clean t) :
    getAllMarkerRanges t = [] := by
  unfold getAllMarkerRanges allRangesGo
  rw [scanFrom_eq_none.mpr (fun i h1 h2 => matchAnyAt_clean h i)]

theorem hasGeneratedCode_eq_isSome (t name : Text) :
    hasGeneratedCode t name = (getFunctionMarkerRange t name).isSome := by
  unfold hasGeneratedCode getFunctionMarkerRange
  cases hscan : scanFrom (matchTaggedAt name t) (t.length + 1) 0 with
  | none =>
    rw [scanFrom_eq_none] at hscan
    simp only [Option.isSome_none]
    rw [List.any_eq_false]
    intro s hs
    rw [List.mem_range] at hs
    rw [hscan s (Nat.zero_le s) (by omega)]
    simp
  | some r =>
    rcases r with ⟨s', e⟩
    rw [scanFrom_eq_some] at hscan
    simp only [Option.isSome_some]
    rw [List.any_eq_true]
    exact ⟨s', by rw [List.mem_range]; omega, by rw [hscan.2.2.1]; rfl⟩

theorem wordChar_not_ws {c : Char} (h : isWordChar c = true) : isWsChar c = false := by
  by_contra hws
  rw [Bool.not_eq_false] at hws
  simp only [isWsChar, Bool.or_eq_true, decide_eq_true_eq] at hws
  rcases hws with ((rfl | rfl) | rfl) | rfl <;> exact absurd h (by decide)

theorem wordChar_ne_nl {c : Char} (h : isWordChar c = true) : c ≠ '\n' := by
  rintro rfl
  have := wordChar_not_ws h
  simp [isWsChar] at this

theorem word_name_no_nl {name : Text} (h : ∀ c ∈ name, isWordChar c = true) :
    '\n' ∉ name := by
  intro hm
  exact wordChar_ne_nl (h _ hm) rfl

theorem takeWhile_append_sat {p : Char → Bool} {xs ys : Text}
    (h : ∀ x ∈ xs, p x = true) :
    (xs ++ ys).takeWhile p = xs ++ ys.takeWhile p := by
  induction xs with
  | nil => simp
  | cons x xs ih =>
    rw [List.cons_append, List.takeWhile_cons, if_pos (h x (List.mem_cons_self x xs)),
      ih (fun y hy => h y (List.mem_cons_of_mem x hy))]
    rfl

/-- The generic (tag-optional) pattern also matches exactly at a canonical
tagged region, consuming the whole region, provided the name is a word and
the region is followed by nothing or whitespace. -/
theorem matchAnyAt_at_region {A indent1 name mid indent2 B : Text}
    (hmid : Clean mid)
    (hw2 : ∀ c ∈ indent2, isWsChar c = true)
    (hword : ∀ c ∈ name, isWordChar c = true)
    (hB : B = [] ∨ ∃ c B2, B = c :: B2 ∧ isWsChar c = true) :
    matchAnyAt (A ++ indent1 ++ regionCore name mid indent2 ++ B)
        (A.length + indent1.length)
      = some (A.length + indent1.length + (regionCore name mid indent2).length) := by
  set t := A ++ indent1 ++ regionCore name mid indent2 ++ B with ht
  set REST := mid ++ '\n' :: indent2 ++ endPat name ++ B with hREST
  have hdrop : t.drop (A.length + indent1.length) = startPat name ++ '\n' :: REST := by
    rw [ht, List.append_assoc (A ++ indent1), drop_len_append (by simp),
      regionCore_shape]
  have hdrop2 : t.drop (A.length + indent1.length)
      = startLitNC ++ ':' :: (name ++ '\n' :: REST) := by
    rw [hdrop, startPat_eq_nc]
    simp [List.append_assoc]
  have hpre : startLitNC.isPrefixOf (t.drop (A.length + indent1.length)) = true := by
    rw [hdrop2]
    exact List.isPrefixOf_iff_prefix.mpr (List.prefix_append _ _)
  have hu0 : (t.drop (A.length + indent1.length)).drop startLitNC.length
      = ':' :: (name ++ '\n' :: REST) := by
    rw [hdrop2, drop_len_append rfl]
  have hname_nonws : ∀ c ∈ name, (!isWsChar c) = true := by
    intro c hc
    rw [wordChar_not_ws (hword c hc)]
    rfl
  have htag : ((name ++ '\n' :: REST).takeWhile (fun c => !isWsChar c)).length
      = name.length := by
    rw [takeWhile_append_sat hname_nonws, List.takeWhile_cons,
      if_neg (by simp [isWsChar])]
    simp
  have hu1 : (name ++ '\n' :: REST).drop name.length = '\n' :: REST :=
    drop_len_append rfl
  have hnl : (('\n' :: REST).takeWhile isWsChar).contains '\n' = true := by
    rw [List.takeWhile_cons, if_pos (by simp [isWsChar])]
    simp [List.contains_cons]
  have hidx : nlIdx ('\n' :: REST) = 0 := by
    simp [nlIdx, List.takeWhile_cons]
  have hfo : firstOccur endLitNC REST = some (mid.length + indent2.length + 1) := by
    apply firstOccur_eq_some.mpr
    constructor
    · have h1 : REST.drop (mid.length + indent2.length + 1)
          = endLitNC ++ ':' :: (name ++ B) := by
        rw [hREST, List.append_assoc (mid ++ '\n' :: indent2),
          drop_len_append (by simp; omega), endPat_eq_nc]
        simp [List.append_assoc]
      rw [h1]
      exact List.prefix_append _ _
    · intro i hi hpre2
      have hc : coreLit <+: REST.drop (i + 3) := by
        rw [endLitNC_decomp] at hpre2
        exact coreLit_after_pat hpre2
      have hshape : REST = mid ++ ('\n' :: indent2) ++
          '/' :: '/' :: ' ' :: (coreLit ++ (("-END:".data ++ name) ++ B)) := by
        rw [hREST, endPat_decomp]
        simp [List.append_assoc]
      rw [hshape] at hc
      have := occ_slashes coreLit_chars
        (w := '\n' :: indent2)
        (by intro c hc2
            rcases List.mem_cons.mp hc2 with rfl | hm
            · simp [isWsChar]
            · exact hw2 c hm)
        hmid hc
      simp at this
      omega
  have hafter : REST.drop (mid.length + indent2.length + 1 + endLitNC.length)
      = ':' :: (name ++ B) := by
    have h1 : REST.drop (mid.length + indent2.length + 1)
        = endLitNC ++ ':' :: (name ++ B) := by
      rw [hREST, List.append_assoc (mid ++ '\n' :: indent2),
        drop_len_append (by simp; omega), endPat_eq_nc]
      simp [List.append_assoc]
    rw [← List.drop_drop, h1, drop_len_append rfl]
  have hendtag : ((name ++ B).takeWhile (fun c => !isWsChar c)).length
      = name.length := by
    rw [takeWhile_append_sat hname_nonws]
    rcases hB with rfl | ⟨c, B2, rfl, hc⟩
    · simp
    · rw [List.takeWhile_cons, if_neg (by simp [hc])]
      simp
  have hlen : (regionCore name mid indent2).length =
      startLitNC.length + 1 + name.length + 1 + mid.length + 1 + indent2.length +
        (endLitNC.length + 1 + name.length) := by
    simp [regionCore, List.length_append, startPat_eq_nc, endPat_eq_nc]
    omega
  have hdropname : List.drop (1 + name.length) (':' :: (name ++ '\n' :: REST))
      = '\n' :: REST := by
    rw [Nat.add_comm, List.drop_succ_cons, drop_len_append rfl]
  unfold matchAnyAt
  dsimp only
  rw [hpre, if_pos rfl, hu0]
  dsimp only
  rw [if_pos rfl]
  rw [htag, hdropname, hnl, if_pos rfl, hidx]
  norm_num
  rw [hfo]
  dsimp only
  have hafter2 : List.drop (1 + (mid.length + indent2.length + 1) + endLitNC.length)
      ('\n' :: REST) = ':' :: (name ++ B) := by
    have he : 1 + (mid.length + indent2.length + 1) + endLitNC.length
        = (mid.length + indent2.length + 1 + endLitNC.length) + 1 := by omega
    rw [he, List.drop_succ_cons, hafter]
  rw [hafter2]
  dsimp only
  rw [if_pos rfl, hendtag]
  simp only [Option.some.injEq]
  omega


theorem matchAnyAt_before_region {A indent1 name mid indent2 B : Text}
    (hA : Clean A)
    (hw1 : ∀ c ∈ indent1, isWsChar c = true)
    {i : Nat} (hi : i < A.length + indent1.length) :
    matchAnyAt (A ++ indent1 ++ regionCore name mid indent2 ++ B) i = none := by
  have hnp : startLitNC.isPrefixOf
      ((A ++ indent1 ++ regionCore name mid indent2 ++ B).drop i) = false := by
    cases hbe : startLitNC.isPrefixOf
        ((A ++ indent1 ++ regionCore name mid indent2 ++ B).drop i) with
    | false => rfl
    | true =>
      exfalso
      have hp := List.isPrefixOf_iff_prefix.mp hbe
      rw [startLitNC_decomp] at hp
      have hc := coreLit_after_pat hp
      have hshape : A ++ indent1 ++ regionCore name mid indent2 ++ B =
          A ++ indent1 ++ '/' :: '/' :: ' ' ::
            (coreLit ++ (("-START:".data ++ name) ++
              ('\n' :: (mid ++ '\n' :: indent2 ++ endPat name ++ B)))) := by
        have h0 : regionCore name mid indent2 ++ B =
            startPat name ++ '\n' :: (mid ++ '\n' :: indent2 ++ endPat name ++ B) :=
          regionCore_shape ..
        rw [List.append_assoc (A ++ indent1), h0, startPat_decomp]
        simp [List.append_assoc]
      rw [hshape] at hc
      have := occ_slashes coreLit_chars hw1 hA hc
      omega
  unfold matchAnyAt
  dsimp only
  rw [hnp]
  simp

theorem matchAnyAt_after_region {A indent1 name mid indent2 B : Text}
    (hB : Clean B)
    {i : Nat} (hi : A.length + indent1.length + (regionCore name mid indent2).length ≤ i) :
    matchAnyAt (A ++ indent1 ++ regionCore name mid indent2 ++ B) i = none := by
  have hnp : startLitNC.isPrefixOf
      ((A ++ indent1 ++ regionCore name mid indent2 ++ B).drop i) = false := by
    cases hbe : startLitNC.isPrefixOf
        ((A ++ indent1 ++ regionCore name mid indent2 ++ B).drop i) with
    | false => rfl
    | true =>
      exfalso
      have hp := List.isPrefixOf_iff_prefix.mp hbe
      rw [startLitNC_decomp] at hp
      have hc := coreLit_after_pat hp
      have hdropB : (A ++ indent1 ++ regionCore name mid indent2 ++ B).drop (i + 3)
          = B.drop (i + 3 - (A ++ indent1 ++ regionCore name mid indent2).length) := by
        rw [List.drop_append_eq_append_drop,
          List.drop_eq_nil_of_le (by simp [List.length_append]; omega), List.nil_append]
      rw [hdropB] at hc
      exact hB (infix_of_prefix_drop hc)
  unfold matchAnyAt
  dsimp only
  rw [hnp]
  simp

theorem allRangesGo_nil {t : Text} {fuel s : Nat}
    (h : ∀ i, s ≤ i → matchAnyAt t i = none) :
    allRangesGo t fuel s = [] := by
  cases fuel with
  | zero => rfl
  | succ fuel =>
    unfold allRangesGo
    rw [scanFrom_eq_none.mpr (fun i h1 h2 => h i h1)]

/-- A canonical single-region document yields exactly one generic marker
range: the region itself. -/
theorem getAllMarkerRanges_canonical {A indent1 name mid indent2 B : Text}
    (hA : Clean A) (hmid : Clean mid) (hB : Clean B)
    (hw1 : ∀ c ∈ indent1, isWsChar c = true)
    (hw2 : ∀ c ∈ indent2, isWsChar c = true)
    (hword : ∀ c ∈ name, isWordChar c = true)
    (hBws : B = [] ∨ ∃ c B2, B = c :: B2 ∧ isWsChar c = true) :
    getAllMarkerRanges (A ++ indent1 ++ regionCore name mid indent2 ++ B)
      = [(A.length + indent1.length,
          A.length + indent1.length + (regionCore name mid indent2).length)] := by
  set t := A ++ indent1 ++ regionCore name mid indent2 ++ B with ht
  have hlen : t.length = A.length + indent1.length + (regionCore name mid indent2).length
      + B.length := by
    rw [ht]; simp [List.length_append]; omega
  have hcore : 0 < (regionCore name mid indent2).length := by
    simp [regionCore, List.length_append, startPat]
  unfold getAllMarkerRanges
  have hfuel : t.length + 1 = (t.length) + 1 := rfl
  cases hf : t.length with
  | zero => omega
  | succ n =>
    unfold allRangesGo
    rw [Nat.sub_zero,
      scanFrom_eq_some.mpr ⟨Nat.zero_le _, by omega,
        matchAnyAt_at_region hmid hw2 hword hBws,
        fun i h0 hlt => matchAnyAt_before_region hA hw1 hlt⟩]
    dsimp only
    rw [allRangesGo_nil (fun i hge => matchAnyAt_after_region hB hge)]

/-! ## Ordering of the global scan -/

theorem matchAnyAt_bound {t : Text} {s e : Nat} (h : matchAnyAt t s = some e) :
    s < e := by
  unfold matchAnyAt at h
  dsimp only at h
  split at h
  · split at h
    · split at h
      · rw [Option.some.injEq] at h
        have h36 : startLitNC.length = 36 := by decide
        omega
      · cases h
    · cases h
  · cases h

theorem allRangesGo_sorted (t : Text) (fuel s : Nat) :
    List.Chain' (fun a b => a.2 ≤ b.1) (allRangesGo t fuel s) ∧
      ∀ r ∈ allRangesGo t fuel s, r.1 < r.2 ∧ s ≤ r.1 := by
  induction fuel generalizing s with
  | zero => simp [allRangesGo]
  | succ fuel ih =>
    unfold allRangesGo
    cases hscan : scanFrom (matchAnyAt t) (t.length + 1 - s) s with
    | none => simp
    | some r =>
      rcases r with ⟨s', e⟩
      rcases scanFrom_eq_some.mp hscan with ⟨h1, h2, h3, h4⟩
      have hse : s' < e := matchAnyAt_bound h3
      rcases ih e with ⟨ihc, ihm⟩
      dsimp only
      constructor
      · rw [List.chain'_cons']
        refine ⟨?_, ihc⟩
        intro b hb
        exact (ihm b (List.mem_of_mem_head? hb)).2
      · intro r hr
        rcases List.mem_cons.mp hr with rfl | hm
        · exact ⟨hse, h1⟩
        · rcases ihm r hm with ⟨ha, hb⟩
          exact ⟨ha, by omega⟩

/-! ## Region Store facts -/

theorem startProcessing_processing {st : Store} {key : String}
    (h : st.isProcessing key = false) :
    (st.startProcessing key).processing = key :: st.processing := by
  unfold Store.startProcessing
  rw [Store.isProcessing] at h
  rw [if_neg (by rw [h]; simp)]

theorem endProcessing_clears {st : Store} {key : String}
    (h : st.processing.contains key = false) :
    ((st.endProcessing key).isProcessing key = false) ∧
      (st.endProcessing key).processing = st.processing := by
  unfold Store.endProcessing Store.isProcessing
  have hmem : key ∉ st.processing := by
    intro hmem
    have hcontr : st.processing.contains key = true := by
      simp
      exact hmem
    rw [h] at hcontr
    cases hcontr
  constructor
  · dsimp only
    rw [List.erase_of_not_mem hmem]
    exact h
  · dsimp only
    rw [List.erase_of_not_mem hmem]

/-! ## Per-line comment/uncomment facts -/

theorem startCore_chars : ∀ c ∈ startCore, isWsChar c = false ∧ c ≠ '/' := by decide

theorem endCore_chars : ∀ c ∈ endCore, isWsChar c = false ∧ c ≠ '/' := by decide

theorem startCore_ne_nil : startCore ≠ [] := by decide

theorem endCore_ne_nil : endCore ≠ [] := by decide

theorem mem_takeWhile_ws {l : Text} : ∀ c ∈ l.takeWhile isWsChar, isWsChar c = true :=
  fun _ hc => List.mem_takeWhile_imp hc

theorem dropWhile_append_sat {p : Char → Bool} {xs ys : Text}
    (h : ∀ x ∈ xs, p x = true) :
    (xs ++ ys).dropWhile p = ys.dropWhile p := by
  induction xs with
  | nil => simp
  | cons x xs ih =>
    rw [List.cons_append, List.dropWhile_cons, if_pos (h x (List.mem_cons_self x xs))]
    exact ih (fun y hy => h y (List.mem_cons_of_mem x hy))

theorem commentLine_skip {l : Text} (h : skipCommentLine l = true) :
    commentLine l = l := by
  unfold commentLine
  rw [if_pos h]

theorem commentLine_content {l : Text} (h : skipCommentLine l = false) :
    commentLine l = l.takeWhile isWsChar ++ '/' :: '/' :: ' ' :: l.dropWhile isWsChar := by
  unfold commentLine
  rw [if_neg (by simp [h])]

theorem trimStart_commentLine_content {l : Text} (h : skipCommentLine l = false) :
    trimStart (commentLine l) = '/' :: '/' :: ' ' :: l.dropWhile isWsChar := by
  rw [commentLine_content h]
  unfold trimStart
  rw [dropWhile_append_sat mem_takeWhile_ws, List.dropWhile_cons,
    if_neg (by simp [isWsChar])]

theorem not_infix_commentLine {p l : Text}
    (hp : ∀ c ∈ p, isWsChar c = false ∧ c ≠ '/') (hpne : p ≠ [])
    (h : ¬ p <:+: l) : ¬ p <:+: commentLine l := by
  cases hsk : skipCommentLine l with
  | true => rwa [commentLine_skip hsk]
  | false =>
    rw [commentLine_content hsk]
    intro hinf
    rcases infix_iff_exists_drop.mp hinf with ⟨q, hq⟩
    have hq' : p <+: ([] ++ l.takeWhile isWsChar ++
        '/' :: '/' :: ' ' :: l.dropWhile isWsChar).drop q := by
      simpa using hq
    have hge := occ_slashes hp mem_takeWhile_ws
      (by rw [List.infix_nil]; exact hpne) hq'
    simp only [List.length_nil, Nat.zero_add] at hge
    have hdrop : ([] ++ l.takeWhile isWsChar ++
        '/' :: '/' :: ' ' :: l.dropWhile isWsChar).drop q
        = (l.dropWhile isWsChar).drop (q - ((l.takeWhile isWsChar).length + 3)) := by
      rw [List.nil_append]
      have hsh : l.takeWhile isWsChar ++ '/' :: '/' :: ' ' :: l.dropWhile isWsChar
          = (l.takeWhile isWsChar ++ ['/', '/', ' ']) ++ l.dropWhile isWsChar := by
        simp [List.append_assoc]
      rw [hsh, List.drop_append_eq_append_drop,
        List.drop_eq_nil_of_le (by simp [List.length_append]; omega), List.nil_append]
      congr 1
      simp [List.length_append]
    rw [hdrop] at hq'
    exact h ((infix_of_prefix_drop hq').trans (List.dropWhile_suffix isWsChar).isInfix)

theorem commentLine_not_blank {l : Text} (h : skipCommentLine l = false) :
    isBlank (commentLine l) = false := by
  rw [commentLine_content h]
  unfold isBlank
  rw [List.all_eq_false]
  refine ⟨'/', ?_, by simp [isWsChar]⟩
  rw [List.mem_append]
  right
  simp

theorem skipCommentLine_commentLine_content {l : Text} (h : skipCommentLine l = false) :
    skipCommentLine (commentLine l) = true := by
  unfold skipCommentLine
  rw [trimStart_commentLine_content h]
  have : ("//".data).isPrefixOf ('/' :: '/' :: ' ' :: l.dropWhile isWsChar) = true := by
    apply List.isPrefixOf_iff_prefix.mpr
    exact ⟨' ' :: l.dropWhile isWsChar, rfl⟩
  rw [this]
  simp

theorem commentLine_idem (l : Text) : commentLine (commentLine l) = commentLine l := by
  cases hsk : skipCommentLine l with
  | true => rw [commentLine_skip hsk, commentLine_skip hsk]
  | false => rw [commentLine_skip (skipCommentLine_commentLine_content hsk)]

theorem uncommentLine_guard {l : Text}
    (h : (containsSub startCore l || containsSub endCore l ||
      !("//".data.isPrefixOf (trimStart l)) || isBlank l) = true) :
    uncommentLine l = l := by
  unfold uncommentLine
  rw [if_pos h]

theorem uncommentLine_commentLine {l : Text}
    (hnc : skipCommentLine l = true →
      (containsSub startCore l || containsSub endCore l || isBlank l) = true) :
    uncommentLine (commentLine l) = l := by
  cases hsk : skipCommentLine l with
  | true =>
    rw [commentLine_skip hsk]
    apply uncommentLine_guard
    have := hnc hsk
    rcases Bool.or_eq_true_iff.mp this with h1 | h1
    · rcases Bool.or_eq_true_iff.mp h1 with h2 | h2
      · simp [h2]
      · simp [h2]
    · simp [h1]
  | false =>
    have hsc : containsSub startCore l = false := by
      unfold skipCommentLine at hsk
      simp only [Bool.or_eq_false_iff] at hsk
      exact hsk.1.1.1
    have hec : containsSub endCore l = false := by
      unfold skipCommentLine at hsk
      simp only [Bool.or_eq_false_iff] at hsk
      exact hsk.1.1.2
    have hsc' : containsSub startCore (commentLine l) = false := by
      rw [containsSub_false_iff]
      exact not_infix_commentLine startCore_chars startCore_ne_nil
        (containsSub_false_iff.mp hsc)
    have hec' : containsSub endCore (commentLine l) = false := by
      rw [containsSub_false_iff]
      exact not_infix_commentLine endCore_chars endCore_ne_nil
        (containsSub_false_iff.mp hec)
    have htrim := trimStart_commentLine_content hsk
    have hpre2 : ("//".data).isPrefixOf (trimStart (commentLine l)) = true := by
      rw [htrim]
      exact List.isPrefixOf_iff_prefix.mpr ⟨' ' :: l.dropWhile isWsChar, rfl⟩
    have hbl : isBlank (commentLine l) = false := commentLine_not_blank hsk
    unfold uncommentLine
    rw [if_neg (by simp [hsc', hec', hpre2, hbl])]
    dsimp only
    have hrest : (commentLine l).dropWhile isWsChar
        = '/' :: '/' :: ' ' :: l.dropWhile isWsChar := htrim
    rw [hrest, if_pos (by apply List.isPrefixOf_iff_prefix.mpr; exact ⟨l.dropWhile isWsChar, rfl⟩)]
    have htake : (commentLine l).takeWhile isWsChar = l.takeWhile isWsChar := by
      rw [commentLine_content hsk, takeWhile_append_sat mem_takeWhile_ws,
        List.takeWhile_cons, if_neg (by simp [isWsChar])]
      simp
    rw [htake]
    simp only [List.drop_succ_cons, List.drop_zero]
    exact List.takeWhile_append_dropWhile isWsChar l


/-! ## Text-level comment/uncomment facts -/

theorem nl_not_mem_commentLine {l : Text} (h : '\n' ∉ l) :
    '\n' ∉ commentLine l := by
  cases hsk : skipCommentLine l with
  | true => rwa [commentLine_skip hsk]
  | false =>
    rw [commentLine_content hsk]
    intro hm
    rcases List.mem_append.mp hm with h1 | h1
    · exact h ((List.takeWhile_prefix isWsChar).subset h1)
    · rcases List.mem_cons.mp h1 with h2 | h1
      · cases h2
      rcases List.mem_cons.mp h1 with h2 | h1
      · cases h2
      rcases List.mem_cons.mp h1 with h2 | h1
      · cases h2
      · exact h ((List.dropWhile_suffix isWsChar).subset h1)

theorem splitNl_commentText (t : Text) :
    splitNl (commentText t) = (splitNl t).map commentLine := by
  unfold commentText
  apply splitNl_joinNl
  · intro l hl
    rcases List.mem_map.mp hl with ⟨l0, hl0, rfl⟩
    exact nl_not_mem_commentLine (mem_splitNl_no_nl l0 hl0)
  · intro hcon
    exact splitNl_ne_nil t (List.map_eq_nil_iff.mp hcon)

theorem commentText_idem (t : Text) :
    commentText (commentText t) = commentText t := by
  conv_lhs => rw [commentText, splitNl_commentText]
  rw [List.map_map]
  have : commentLine ∘ commentLine = commentLine := by
    funext l
    exact commentLine_idem l
  rw [this]
  rfl

theorem uncommentText_commentText {t : Text}
    (h : ∀ l ∈ splitNl t, skipCommentLine l = true →
      (containsSub startCore l || containsSub endCore l || isBlank l) = true) :
    uncommentText (commentText t) = t := by
  rw [uncommentText, splitNl_commentText, List.map_map]
  have hmap : (splitNl t).map (uncommentLine ∘ commentLine) = (splitNl t).map id :=
    List.map_congr_left (fun l hl => uncommentLine_commentLine (h l hl))
  rw [hmap, List.map_id, joinNl_splitNl]

/-! ## Cleanliness preservation -/

theorem clean_ws_append {w code : Text} (hw : ∀ c ∈ w, isWsChar c = true)
    (hc : Clean code) : Clean (w ++ code) := by
  cases hwe : w with
  | nil => simpa using hc
  | cons c0 w' =>
    intro hinf
    rcases infix_iff_exists_drop.mp hinf with ⟨q, hq⟩
    have hq' : coreLit <+: ([] ++ (c0 :: w') ++ code).drop q := by simpa using hq
    have hge := occ_wall (p := coreLit) (A := []) (w := c0 :: w') (B := code)
      (fun d hd hdp => by
        have h1 := hw d (hwe ▸ hd)
        have h2 := (coreLit_chars d hdp).1
        simp_all)
      (by rw [List.infix_nil]; exact coreLit_ne_nil)
      (by simp) hq'
    simp only [List.length_nil, Nat.zero_add] at hge
    have hdrop : ([] ++ (c0 :: w') ++ code).drop q = code.drop (q - (c0 :: w').length) := by
      rw [List.nil_append, List.drop_append_eq_append_drop,
        List.drop_eq_nil_of_le (by omega), List.nil_append]
    rw [hdrop] at hq'
    exact hc (infix_of_prefix_drop hq')

theorem mem_joinNl_infix {l : Text} {ls : List Text} (h : l ∈ ls) :
    l <:+: joinNl ls := by
  induction ls with
  | nil => cases h
  | cons x xs ih =>
    rcases List.mem_cons.mp h with rfl | hm
    · cases xs with
      | nil => exact List.infix_rfl
      | cons y ys =>
        rw [joinNl_cons (by simp)]
        exact (List.prefix_append _ _).isInfix
    · cases xs with
      | nil => cases hm
      | cons y ys =>
        rw [joinNl_cons (by simp)]
        exact (ih hm).trans
          (((List.suffix_cons '\n' _).trans (List.suffix_append x _)).isInfix)

theorem clean_of_mem_splitNl {t l : Text} (ht : Clean t) (h : l ∈ splitNl t) :
    Clean l := by
  have := mem_joinNl_infix h
  rw [joinNl_splitNl] at this
  exact Clean.of_infix this ht

theorem clean_commentLine {l : Text} (h : Clean l) : Clean (commentLine l) :=
  not_infix_commentLine coreLit_chars coreLit_ne_nil h

theorem clean_joinNl {ls : List Text} (h : ∀ l ∈ ls, Clean l) :
    Clean (joinNl ls) := by
  induction ls with
  | nil => exact clean_nil
  | cons x xs ih =>
    cases xs with
    | nil => exact h x (List.mem_cons_self x [])
    | cons y ys =>
      rw [joinNl_cons (by simp)]
      have hsand := clean_sandwich (w := ['\n'])
        (h x (List.mem_cons_self x _))
        (ih (fun l hl => h l (List.mem_cons_of_mem x hl)))
        (by intro c hc; rcases List.mem_singleton.mp hc with rfl; simp [isWsChar])
        (by simp)
      simpa using hsand

theorem clean_commentText {t : Text} (h : Clean t) : Clean (commentText t) := by
  unfold commentText
  apply clean_joinNl
  intro l hl
  rcases List.mem_map.mp hl with ⟨l0, hl0, rfl⟩
  exact clean_commentLine (clean_of_mem_splitNl h hl0)


/-! ## Region line structure -/

theorem isWordChar_nl : isWordChar '\n' = false := by decide

theorem startPat_no_nl {name : Text} (h : ∀ c ∈ name, isWordChar c = true) :
    '\n' ∉ startPat name := by
  intro hm
  unfold startPat at hm
  rcases List.mem_append.mp hm with h1 | h1
  · revert h1
    decide
  · have := h _ h1
    rw [isWordChar_nl] at this
    cases this

theorem endPat_no_nl {name : Text} (h : ∀ c ∈ name, isWordChar c = true) :
    '\n' ∉ endPat name := by
  intro hm
  unfold endPat at hm
  rcases List.mem_append.mp hm with h1 | h1
  · revert h1
    decide
  · have := h _ h1
    rw [isWordChar_nl] at this
    cases this

theorem regionCore_nl_shape (name mid indent2 : Text) :
    regionCore name mid indent2
      = startPat name ++ '\n' :: (mid ++ '\n' :: (indent2 ++ endPat name)) := by
  simp [regionCore, List.append_assoc]

theorem splitNl_regionCore {name mid indent2 : Text}
    (hname : ∀ c ∈ name, isWordChar c = true) (hi2 : '\n' ∉ indent2) :
    splitNl (regionCore name mid indent2)
      = startPat name :: (splitNl mid ++ [indent2 ++ endPat name]) := by
  have hend : '\n' ∉ indent2 ++ endPat name := by
    intro hm
    rcases List.mem_append.mp hm with h1 | h1
    · exact hi2 h1
    · exact endPat_no_nl hname h1
  rw [regionCore_nl_shape, splitNl_append_nl, splitNl_append_nl,
    splitNl_no_nl (startPat_no_nl hname), splitNl_no_nl (a := indent2 ++ endPat name) hend]
  simp

theorem containsSub_startCore_startLine (name : Text) :
    containsSub startCore (startPat name) = true := by
  rw [containsSub_iff]
  refine ⟨['/', '/', ' '], name, ?_⟩
  rw [startPat_core]
  simp

theorem containsSub_endCore_endLine (indent2 name : Text) :
    containsSub endCore (indent2 ++ endPat name) = true := by
  rw [containsSub_iff]
  refine ⟨indent2 ++ ['/', '/', ' '], name, ?_⟩
  rw [endPat_core]
  simp

theorem commentLine_startLine (name : Text) :
    commentLine (startPat name) = startPat name := by
  apply commentLine_skip
  unfold skipCommentLine
  rw [containsSub_startCore_startLine]
  simp

theorem commentLine_endLine (indent2 name : Text) :
    commentLine (indent2 ++ endPat name) = indent2 ++ endPat name := by
  apply commentLine_skip
  unfold skipCommentLine
  rw [containsSub_endCore_endLine]
  simp

theorem commentText_regionCore {name mid indent2 : Text}
    (hname : ∀ c ∈ name, isWordChar c = true) (hi2 : '\n' ∉ indent2) :
    commentText (regionCore name mid indent2)
      = regionCore name (commentText mid) indent2 := by
  unfold commentText
  rw [splitNl_regionCore hname hi2]
  rw [List.map_cons, List.map_append, List.map_singleton,
    commentLine_startLine, commentLine_endLine]
  have h1 : joinNl (startPat name :: ((splitNl mid).map commentLine
      ++ [indent2 ++ endPat name]))
      = startPat name ++ '\n' :: joinNl ((splitNl mid).map commentLine
          ++ [indent2 ++ endPat name]) :=
    joinNl_cons (by simp)
  have h2 : joinNl ((splitNl mid).map commentLine ++ [indent2 ++ endPat name])
      = joinNl ((splitNl mid).map commentLine) ++ '\n' :: (indent2 ++ endPat name) := by
    rw [joinNl_append
      (by intro hcon; exact splitNl_ne_nil mid (List.map_eq_nil_iff.mp hcon))
      (by simp)]
    rfl
  rw [h1, h2, regionCore_nl_shape]

theorem findNameTag_head {u : Text}
    (hpre : ("// FUNCTION-RUN-GENERATED-CODE-START:".data).isPrefixOf u = true)
    (htag : (u.drop ("// FUNCTION-RUN-GENERATED-CODE-START:".data).length).takeWhile
      isWordChar ≠ []) :
    findNameTag u = some ((u.drop ("// FUNCTION-RUN-GENERATED-CODE-START:".data).length).takeWhile
      isWordChar) := by
  cases u with
  | nil =>
    exfalso
    have := List.isPrefixOf_iff_prefix.mp hpre
    rw [List.prefix_nil] at this
    cases this
  | cons c rest =>
    unfold findNameTag
    rw [if_pos hpre]
    dsimp only
    rw [if_neg (by simpa [List.isEmpty_iff] using htag)]

theorem getFunctionNameFromMarker_regionCore {name mid indent2 : Text}
    (hword : ∀ c ∈ name, isWordChar c = true) (hne : name ≠ []) :
    getFunctionNameFromMarker (regionCore name mid indent2) = some name := by
  unfold getFunctionNameFromMarker
  have hshape : regionCore name mid indent2
      = "// FUNCTION-RUN-GENERATED-CODE-START:".data
          ++ (name ++ '\n' :: (mid ++ '\n' :: (indent2 ++ endPat name))) := by
    rw [regionCore_nl_shape]
    unfold startPat
    simp [List.append_assoc]
  have hdrop : (regionCore name mid indent2).drop
      ("// FUNCTION-RUN-GENERATED-CODE-START:".data).length
      = name ++ '\n' :: (mid ++ '\n' :: (indent2 ++ endPat name)) := by
    rw [hshape, drop_len_append rfl]
  have htake : ((regionCore name mid indent2).drop
      ("// FUNCTION-RUN-GENERATED-CODE-START:".data).length).takeWhile isWordChar
      = name := by
    rw [hdrop, takeWhile_append_sat hword, List.takeWhile_cons,
      if_neg (by simp [isWordChar_nl])]
    simp
  rw [findNameTag_head ?hpre ?htag, htake]
  case hpre =>
    rw [hshape]
    exact List.isPrefixOf_iff_prefix.mpr (List.prefix_append _ _)
  case htag =>
    rw [htake]
    exact hne

/-! ## More cleanliness and indentation facts -/

theorem clean_take {t : Text} (h : Clean t) (p : Nat) : Clean (t.take p) :=
  Clean.of_infix (List.take_prefix p t).isInfix h

theorem clean_drop {t : Text} (h : Clean t) (p : Nat) : Clean (t.drop p) :=
  Clean.of_infix (List.drop_suffix p t).isInfix h

theorem coreLit_infix_startCore : coreLit <+: startCore := by decide

theorem coreLit_infix_endCore : coreLit <+: endCore := by decide

theorem containsSub_startCore_of_clean {l : Text} (h : Clean l) :
    containsSub startCore l = false := by
  rw [containsSub_false_iff]
  intro hinf
  exact h ((coreLit_infix_startCore.isInfix).trans hinf)

theorem containsSub_endCore_of_clean {l : Text} (h : Clean l) :
    containsSub endCore l = false := by
  rw [containsSub_false_iff]
  intro hinf
  exact h ((coreLit_infix_endCore.isInfix).trans hinf)

theorem indentOf_ws (t : Text) (k : Nat) : ∀ c ∈ indentOf t k, isWsChar c = true :=
  fun _ hc => List.mem_takeWhile_imp hc

theorem indentOf_no_nl (t : Text) (k : Nat) : '\n' ∉ indentOf t k := by
  intro hm
  unfold indentOf lineText at hm
  have hm2 : '\n' ∈ ((splitNl t).drop k).headD [] :=
    (List.takeWhile_prefix isWsChar).subset hm
  cases hd : (splitNl t).drop k with
  | nil => rw [hd] at hm2; cases hm2
  | cons x xs =>
    rw [hd] at hm2
    have hx : x ∈ splitNl t := (List.drop_suffix k (splitNl t)).subset (hd ▸ List.mem_cons_self x xs)
    exact mem_splitNl_no_nl x hx hm2

/-- The lines strictly between the start and end markers of a region text. -/
theorem isCodeCommented_canonical {A indent1 name mid indent2 B : Text}
    (hA : Clean A) (hmid : Clean mid)
    (hw1 : ∀ c ∈ indent1, isWsChar c = true)
    (hw2 : ∀ c ∈ indent2, isWsChar c = true)
    (hname : ∀ c ∈ name, isWordChar c = true) (hi2 : '\n' ∉ indent2) :
    isCodeCommented (A ++ indent1 ++ regionCore name mid indent2 ++ B) name
      = ((splitNl mid).filter (fun l => !isBlank l)).all
          (fun l => "//".data.isPrefixOf (trimStart l)) := by
  unfold isCodeCommented
  rw [getFunctionMarkerRange_canonical hA hmid hw1 hw2]
  dsimp only
  rw [extractText_canonical, splitNl_regionCore hname hi2]
  have hstart : (!containsSub startCore (startPat name) &&
      !containsSub endCore (startPat name) && !isBlank (startPat name)) = false := by
    rw [containsSub_startCore_startLine]
    simp
  have hend : (!containsSub startCore (indent2 ++ endPat name) &&
      !containsSub endCore (indent2 ++ endPat name) &&
      !isBlank (indent2 ++ endPat name)) = false := by
    rw [containsSub_endCore_endLine]
    simp
  rw [List.filter_cons, List.filter_append, List.filter_singleton]
  simp only [hstart, hend]
  simp only [Bool.false_eq_true, if_false, cond_false, List.append_nil]
  have hfil : (splitNl mid).filter (fun l => !containsSub startCore l &&
      !containsSub endCore l && !isBlank l)
      = (splitNl mid).filter (fun l => !isBlank l) := by
    apply List.filter_congr
    intro l hl
    have hcl := clean_of_mem_splitNl hmid hl
    rw [containsSub_startCore_of_clean hcl, containsSub_endCore_of_clean hcl]
    simp
  rw [hfil]


theorem not_mem_of_contains_false {p : List String} {key : String}
    (h : p.contains key = false) : key ∉ p := by
  intro hm
  have hc : p.contains key = true := by
    simp
    exact hm
  rw [h] at hc
  cases hc

theorem clears_once {p : List String} {key : String} (h : p.contains key = false) :
    ((key :: p).erase key).contains key = false := by
  rw [List.erase_cons_head]
  exact h

theorem clears_twice {p : List String} {key : String} (h : p.contains key = false) :
    (((key :: p).erase key).erase key).contains key = false := by
  rw [List.erase_cons_head, List.erase_of_not_mem (not_mem_of_contains_false h)]
  exact h

/-! ## Claim theorems -/

/-- C10: for every document text and function name, the generated-code test
(`hasGeneratedCode`, a regex `test` of the tagged pattern) returns true
exactly when the region-range lookup (`getFunctionMarkerRange`, a regex
`exec` of the same pattern) returns a non-null range. -/
theorem hasGeneratedCode_agrees_markerRange (t name : Text) :
    hasGeneratedCode t name = (getFunctionMarkerRange t name).isSome :=
  hasGeneratedCode_eq_isSome t name

/-- C7: for every document text, `getAllMarkerRanges` returns spans that are
pairwise non-overlapping and in document order (each span starts at or after
the end of the previous one), and every span is non-degenerate. -/
theorem getAllMarkerRanges_ordered_disjoint (t : Text) :
    List.Chain' (fun a b => a.2 ≤ b.1) (getAllMarkerRanges t) ∧
      ∀ r ∈ getAllMarkerRanges t, r.1 < r.2 := by
  rcases allRangesGo_sorted t (t.length + 1) 0 with ⟨hc, hm⟩
  exact ⟨hc, fun r hr => (hm r hr).1⟩

/-- C4: invoking the run-function command for a function whose processing
flag is already set is rejected synchronously: the document text is
unmodified, the Region Store is unchanged, exactly one user notice is shown,
and no Quokka action is invoked. -/
theorem runFunction_rejects_concurrent (doc : Text) (st : Store)
    (file name : String) (lineNumber : Nat)
    (regenerate quokkaOk editOk : Bool) (ai : AIOutcome)
    (h : st.isProcessing (storeKey file name) = true) :
    (runFunction doc st file name lineNumber regenerate quokkaOk editOk ai).doc = doc ∧
    (runFunction doc st file name lineNumber regenerate quokkaOk editOk ai).store = st ∧
    (runFunction doc st file name lineNumber regenerate quokkaOk editOk ai).notices.length = 1 ∧
    (runFunction doc st file name lineNumber regenerate quokkaOk editOk ai).runnerRuns = 0 ∧
    (runFunction doc st file name lineNumber regenerate quokkaOk editOk ai).runnerStops = 0 := by
  unfold runFunction
  dsimp only
  rw [if_pos h]
  simp

/-- Witness for C4 at a concrete already-processing state. -/
theorem runFunction_rejects_concurrent_witness :
    (Store.isProcessing ⟨["a.ts|foo"], [], []⟩ (storeKey "a.ts" "foo") = true) ∧
    ((runFunction "x".data ⟨["a.ts|foo"], [], []⟩ "a.ts" "foo" 0 true true true
        (.parsed "foo(1)")).doc = "x".data ∧
      (runFunction "x".data ⟨["a.ts|foo"], [], []⟩ "a.ts" "foo" 0 true true true
        (.parsed "foo(1)")).store = ⟨["a.ts|foo"], [], []⟩ ∧
      (runFunction "x".data ⟨["a.ts|foo"], [], []⟩ "a.ts" "foo" 0 true true true
        (.parsed "foo(1)")).notices.length = 1 ∧
      (runFunction "x".data ⟨["a.ts|foo"], [], []⟩ "a.ts" "foo" 0 true true true
        (.parsed "foo(1)")).runnerRuns = 0 ∧
      (runFunction "x".data ⟨["a.ts|foo"], [], []⟩ "a.ts" "foo" 0 true true true
        (.parsed "foo(1)")).runnerStops = 0) :=
  ⟨by decide, runFunction_rejects_concurrent _ _ _ _ _ _ _ _ _ (by decide)⟩

/-- C2 counterexample: a region text consisting of an already-commented line
is not restored by comment-then-uncomment — the uncomment pass strips the
pre-existing `// ` prefix. -/
theorem comment_uncomment_not_inverse_cex :
    uncommentText (commentText ("// x".data)) ≠ "// x".data := by decide

/-- C2 (amended): on region texts none of whose non-marker, non-blank lines
is already commented, comment-then-uncomment restores the original text
exactly; and the comment transformation is idempotent on all texts. -/
theorem comment_uncomment_roundtrip_amended (t : Text)
    (h : ∀ l ∈ splitNl t, "//".data.isPrefixOf (trimStart l) = true →
      (containsSub startCore l || containsSub endCore l || isBlank l) = true) :
    uncommentText (commentText t) = t ∧
      commentText (commentText t) = commentText t := by
  refine ⟨uncommentText_commentText ?_, commentText_idem t⟩
  intro l hl hskip
  unfold skipCommentLine at hskip
  cases hsc : containsSub startCore l with
  | true => simp [hsc]
  | false =>
    cases hec : containsSub endCore l with
    | true => simp [hec]
    | false =>
      cases hbl : isBlank l with
      | true => simp [hbl]
      | false =>
        cases hpre : ("//".data).isPrefixOf (trimStart l) with
        | true =>
          have hcontra := h l hl hpre
          rw [hsc, hec, hbl] at hcontra
          simp at hcontra
        | false =>
          rw [hsc, hec, hbl, hpre] at hskip
          cases hskip

/-- Witness for C2 (amended) on a two-line uncommented region body. -/
theorem comment_uncomment_roundtrip_amended_witness :
    (∀ l ∈ splitNl ("foo(1)\n  bar(2)".data),
      "//".data.isPrefixOf (trimStart l) = true →
        (containsSub startCore l || containsSub endCore l || isBlank l) = true) ∧
    (uncommentText (commentText ("foo(1)\n  bar(2)".data)) = "foo(1)\n  bar(2)".data ∧
      commentText (commentText ("foo(1)\n  bar(2)".data))
        = commentText ("foo(1)\n  bar(2)".data)) :=
  ⟨by decide, comment_uncomment_roundtrip_amended _ (by decide)⟩


theorem markCommented_processing (st : Store) (key : String) (b : Bool) :
    (st.markCommented key b).processing = st.processing := rfl

theorem clears_A {st : Store} {key : String} (h : st.isProcessing key = false) :
    ((st.startProcessing key).endProcessing key).isProcessing key = false := by
  unfold Store.endProcessing Store.isProcessing
  dsimp only
  rw [startProcessing_processing h]
  exact clears_once h

theorem clears_B {st : Store} {key : String} (h : st.isProcessing key = false) :
    ((((st.startProcessing key).markCommented key false).endProcessing
      key).endProcessing key).isProcessing key = false := by
  unfold Store.endProcessing Store.isProcessing
  dsimp only
  rw [markCommented_processing, startProcessing_processing h]
  exact clears_twice h

theorem clears_C {st : Store} {key : String} (h : st.isProcessing key = false) :
    (((st.startProcessing key).endProcessing key).endProcessing
      key).isProcessing key = false := by
  unfold Store.endProcessing Store.isProcessing
  dsimp only
  rw [startProcessing_processing h]
  exact clears_twice h

/-- C3 counterexample: when the function is already processing at entry, the
guard path returns immediately and the processing flag is still set after the
command returns. -/
theorem runFunction_processing_guard_cex :
    (runFunction "x".data ⟨["a.ts|foo"], [], []⟩ "a.ts" "foo" 0 true true true
      (.parsed "foo(1)")).store.isProcessing (storeKey "a.ts" "foo") = true := by
  decide

/-- C3 (amended): for every invocation that is not rejected by the
already-processing guard (the flag is clear at entry), the processing flag is
false after the command returns, on every path — normal completion, missing
Quokka, and edit-time exceptions alike. -/
theorem runFunction_clears_processing (doc : Text) (st : Store) (file name : String)
    (lineNumber : Nat) (regenerate quokkaOk editOk : Bool) (ai : AIOutcome)
    (h : st.isProcessing (storeKey file name) = false) :
    (runFunction doc st file name lineNumber regenerate quokkaOk editOk
      ai).store.isProcessing (storeKey file name) = false := by
  unfold runFunction
  dsimp only
  rw [if_neg (by rw [h]; simp)]
  split
  · exact clears_A h
  · split
    · split
      · split
        · exact clears_B h
        · exact clears_C h
      · rename_i heq
        simp_all
    · split
      · split
        · split
          · split
            · exact clears_A h
            · exact clears_C h
          · exact clears_A h
        · split
          · exact clears_A h
          · exact clears_C h
      · exact clears_A h

/-- Witness for C3 (amended) at a concrete idle state. -/
theorem runFunction_clears_processing_witness :
    (Store.isProcessing ⟨[], [], []⟩ (storeKey "a.ts" "foo") = false) ∧
    (runFunction "function foo() \x7b\x7d".data ⟨[], [], []⟩ "a.ts" "foo" 0 true true true
      (.parsed "foo(1)")).store.isProcessing (storeKey "a.ts" "foo") = false :=
  ⟨by decide, runFunction_clears_processing _ _ _ _ _ _ _ _ _ (by decide)⟩


/-- C9: for every document and function name possessing a tagged region, the
body-commented predicate returns true if and only if every line of the region
text other than the marker lines and blank lines begins with `//` once its
leading whitespace is stripped. -/
theorem isCodeCommented_iff_content_lines (t name : Text) (s e : Nat)
    (h : getFunctionMarkerRange t name = some (s, e)) :
    isCodeCommented t name = true ↔
      ∀ l ∈ splitNl (extractText t s e),
        ¬ startCore <:+: l → ¬ endCore <:+: l → isBlank l = false →
          "//".data.isPrefixOf (trimStart l) = true := by
  unfold isCodeCommented
  rw [h]
  dsimp only
  rw [List.all_eq_true]
  constructor
  · intro hall l hl h1 h2 h3
    refine hall l (List.mem_filter.mpr ⟨hl, ?_⟩)
    rw [containsSub_false_iff.mpr h1, containsSub_false_iff.mpr h2, h3]
    rfl
  · intro hall l hlf
    rcases List.mem_filter.mp hlf with ⟨hl, hcond⟩
    simp only [Bool.and_eq_true, Bool.not_eq_true'] at hcond
    exact hall l hl (containsSub_false_iff.mp hcond.1.1)
      (containsSub_false_iff.mp hcond.1.2) hcond.2

/-- Witness for C9 on a concrete commented region. -/
theorem isCodeCommented_iff_content_lines_witness :
    (getFunctionMarkerRange
      "// FUNCTION-RUN-GENERATED-CODE-START:f\n// x\n// FUNCTION-RUN-GENERATED-CODE-END:f".data
      "f".data = some (0, 80)) ∧
    (isCodeCommented
      "// FUNCTION-RUN-GENERATED-CODE-START:f\n// x\n// FUNCTION-RUN-GENERATED-CODE-END:f".data
      "f".data = true ↔
      ∀ l ∈ splitNl (extractText
        "// FUNCTION-RUN-GENERATED-CODE-START:f\n// x\n// FUNCTION-RUN-GENERATED-CODE-END:f".data
        0 80),
        ¬ startCore <:+: l → ¬ endCore <:+: l → isBlank l = false →
          "//".data.isPrefixOf (trimStart l) = true) :=
  ⟨by decide, isCodeCommented_iff_content_lines _ _ _ _ (by decide)⟩


/-! ## Insert-path geometry -/

theorem foldl_len_shift (l : List Text) (a : Nat) :
    l.foldl (fun acc m => acc + m.length + 1) a
      = a + l.foldl (fun acc m => acc + m.length + 1) 0 := by
  induction l generalizing a with
  | nil => simp
  | cons y ys ihy =>
    rw [List.foldl_cons, List.foldl_cons, ihy, ihy (0 + y.length + 1)]
    omega

theorem lineStart_aux_le {ls : List Text} : ∀ {k : Nat}, k < ls.length →
    (ls.take k).foldl (fun acc l => acc + l.length + 1) 0 ≤ (joinNl ls).length := by
  induction ls with
  | nil => intro k h; cases h
  | cons x xs ih =>
    intro k h
    cases k with
    | zero => simp
    | succ k' =>
      have hxs : xs ≠ [] := by
        intro he
        subst he
        simp at h
      have hk' : k' < xs.length := by simpa using h
      rw [List.take_succ_cons, List.foldl_cons, foldl_len_shift, joinNl_cons hxs]
      have := ih hk'
      simp [List.length_append]
      omega

theorem lineStartOffset_le {t : Text} {k : Nat} (h : k < (splitNl t).length) :
    lineStartOffset t k ≤ t.length := by
  unfold lineStartOffset
  have := @lineStart_aux_le (splitNl t) _ h
  rwa [joinNl_splitNl] at this

theorem innerLines_regionCore {name mid indent2 : Text}
    (hname : ∀ c ∈ name, isWordChar c = true) (hi2 : '\n' ∉ indent2) :
    innerLines (regionCore name mid indent2) = splitNl mid := by
  unfold innerLines
  rw [splitNl_regionCore hname hi2]
  rw [List.drop_one, List.tail_cons, List.dropLast_concat]

theorem insert_shape (doc : Text) (p : Nat) (indent name code : Text) :
    doc.take p ++ codeWithMarkers indent name code ++ doc.drop p
      = doc.take p ++ indent ++ regionCore name (indent ++ code) indent
          ++ ('\n' :: '\n' :: doc.drop p) := by
  simp [codeWithMarkers, regionCore, List.append_assoc]

theorem insert_region_lookup {doc : Text} {p : Nat} {indent name code : Text}
    (hdoc : Clean doc) (hcode : Clean code)
    (hw : ∀ c ∈ indent, isWsChar c = true)
    (hp : p ≤ doc.length) :
    getFunctionMarkerRange
        (doc.take p ++ codeWithMarkers indent name code ++ doc.drop p) name
      = some (p + indent.length,
          p + indent.length + (regionCore name (indent ++ code) indent).length)
    ∧ extractText (doc.take p ++ codeWithMarkers indent name code ++ doc.drop p)
        (p + indent.length)
        (p + indent.length + (regionCore name (indent ++ code) indent).length)
      = regionCore name (indent ++ code) indent := by
  rw [insert_shape]
  have hlen : (doc.take p).length = p := by
    rw [List.length_take]
    omega
  constructor
  · rw [getFunctionMarkerRange_canonical (clean_take hdoc p)
      (clean_ws_append hw hcode) hw hw, hlen]
  · have h2 := @extractText_canonical (doc.take p) indent name (indent ++ code)
      indent ('\n' :: '\n' :: doc.drop p)
    rwa [hlen] at h2


/-- C1: inserting a fresh marker region for a name above line `k` (the
regenerate path when no region exists), in a marker-free document with a
marker-free generated body, and then looking the region up by name via the
tagged-marker search, returns exactly the inserted region's span, and the
lines strictly between the markers rejoin to the inserted (indented)
generated body. -/
theorem insert_findRegion_roundtrip (doc : Text) (k : Nat) (name code : Text)
    (hdoc : Clean doc) (hcode : Clean code)
    (hname : ∀ c ∈ name, isWordChar c = true)
    (hk : k < (splitNl doc).length) :
    getFunctionMarkerRange
        (doc.take (lineStartOffset doc k)
          ++ codeWithMarkers (indentOf doc k) name code
          ++ doc.drop (lineStartOffset doc k)) name
      = some (lineStartOffset doc k + (indentOf doc k).length,
          lineStartOffset doc k + (indentOf doc k).length
            + (regionCore name (indentOf doc k ++ code) (indentOf doc k)).length) ∧
    joinNl (innerLines (extractText
        (doc.take (lineStartOffset doc k)
          ++ codeWithMarkers (indentOf doc k) name code
          ++ doc.drop (lineStartOffset doc k))
        (lineStartOffset doc k + (indentOf doc k).length)
        (lineStartOffset doc k + (indentOf doc k).length
          + (regionCore name (indentOf doc k ++ code) (indentOf doc k)).length)))
      = indentOf doc k ++ code := by
  rcases insert_region_lookup hdoc hcode (indentOf_ws doc k) (lineStartOffset_le hk)
    with ⟨h1, h2⟩
  refine ⟨h1, ?_⟩
  rw [h2, innerLines_regionCore hname (indentOf_no_nl doc k), joinNl_splitNl]

/-- Witness for C1 on a concrete document and body. -/
theorem insert_findRegion_roundtrip_witness :
    (Clean "function foo() \x7b\x7d".data ∧ Clean "foo(1)".data ∧
      (∀ c ∈ ("foo".data : FnRun.Text), isWordChar c = true) ∧
      0 < (splitNl "function foo() \x7b\x7d".data).length) ∧
    (getFunctionMarkerRange
        ("function foo() \x7b\x7d".data.take (lineStartOffset "function foo() \x7b\x7d".data 0)
          ++ codeWithMarkers (indentOf "function foo() \x7b\x7d".data 0) "foo".data "foo(1)".data
          ++ "function foo() \x7b\x7d".data.drop (lineStartOffset "function foo() \x7b\x7d".data 0))
        "foo".data
      = some (lineStartOffset "function foo() \x7b\x7d".data 0
            + (indentOf "function foo() \x7b\x7d".data 0).length,
          lineStartOffset "function foo() \x7b\x7d".data 0
            + (indentOf "function foo() \x7b\x7d".data 0).length
            + (regionCore "foo".data
                (indentOf "function foo() \x7b\x7d".data 0 ++ "foo(1)".data)
                (indentOf "function foo() \x7b\x7d".data 0)).length) ∧
    joinNl (innerLines (extractText
        ("function foo() \x7b\x7d".data.take (lineStartOffset "function foo() \x7b\x7d".data 0)
          ++ codeWithMarkers (indentOf "function foo() \x7b\x7d".data 0) "foo".data "foo(1)".data
          ++ "function foo() \x7b\x7d".data.drop (lineStartOffset "function foo() \x7b\x7d".data 0))
        (lineStartOffset "function foo() \x7b\x7d".data 0
          + (indentOf "function foo() \x7b\x7d".data 0).length)
        (lineStartOffset "function foo() \x7b\x7d".data 0
          + (indentOf "function foo() \x7b\x7d".data 0).length
          + (regionCore "foo".data
              (indentOf "function foo() \x7b\x7d".data 0 ++ "foo(1)".data)
              (indentOf "function foo() \x7b\x7d".data 0)).length)))
      = indentOf "function foo() \x7b\x7d".data 0 ++ "foo(1)".data) :=
  ⟨⟨by decide, by decide, by decide, by decide⟩,
    insert_findRegion_roundtrip _ _ _ _ (by decide) (by decide) (by decide) (by decide)⟩


theorem hasGeneratedCode_clean {t name : Text} (h : Clean t) :
    hasGeneratedCode t name = false := by
  unfold hasGeneratedCode
  rw [List.any_eq_false]
  intro s hs
  rw [matchTaggedAt_clean h s]
  simp

theorem dash_mem_coreLit : '-' ∈ coreLit := by decide

theorem clean_of_no_dash {l : Text} (h : '-' ∉ l) : Clean l := by
  intro hinf
  exact h (hinf.subset dash_mem_coreLit)

theorem isWordChar_dash : isWordChar '-' = false := by decide

theorem clean_fallback {pre suf name : String}
    (hpre : '-' ∉ pre.data) (hsuf : '-' ∉ suf.data)
    (hname : ∀ c ∈ name.data, isWordChar c = true) :
    Clean (pre ++ name ++ suf).data := by
  apply clean_of_no_dash
  intro hm
  rw [String.data_append, String.data_append] at hm
  rcases List.mem_append.mp hm with h1 | h1
  · rcases List.mem_append.mp h1 with h2 | h2
    · exact hpre h2
    · have := hname _ h2
      rw [isWordChar_dash] at this
      cases this
  · exact hsuf h1

/-- C5 counterexample: when the Code Generator throws, the fallback names the
function but carries no comment annotation at all. -/
theorem generator_throw_fallback_unannotated_cex :
    (askAIForFunctionCall "bar" .threw
        = "(async () => \x7b console.log(await bar()); \x7d)();") ∧
    ¬ ("/*".data <:+: (askAIForFunctionCall "bar" .threw).data) := by
  constructor
  · rfl
  · decide


theorem runFunction_generate_insert {doc : Text} {st : Store} {file name : String}
    {k : Nat} {ai : AIOutcome}
    (hdoc : Clean doc)
    (hst : st.isProcessing (storeKey file name) = false) :
    runFunction doc st file name k true true true ai
      = ⟨doc.take (lineStartOffset doc k)
            ++ codeWithMarkers (indentOf doc k) name.data
                (askAIForFunctionCall name ai).data
            ++ doc.drop (lineStartOffset doc k),
          (st.startProcessing (storeKey file name)).endProcessing (storeKey file name),
          ["Generated parameters for " ++ name], 1, 0⟩ := by
  unfold runFunction
  dsimp only
  rw [if_neg (by rw [hst]; simp), if_neg (by simp),
    if_neg (by simp), if_pos rfl, hasGeneratedCode_clean hdoc]
  rw [if_neg (by simp), if_pos rfl]

/-- C5 (amended): when the Code Generator fails with a missing credential, an
empty response, or an unparsable response, the generation step still inserts
a region whose contained body is a fallback call expression naming the
function together with a comment annotation describing the failure; the
processing flag is cleared and exactly one notice is shown.  (When the
generator call throws, the fallback call still names the function but
carries no annotation — see the counterexample.) -/
theorem generator_failure_fallback_region (doc : Text) (st : Store)
    (file name : String) (k : Nat) (ai : AIOutcome)
    (hai : ai = .missingKey ∨ ai = .noContent ∨ ai = .unparsable)
    (hdoc : Clean doc)
    (hname : ∀ c ∈ name.data, isWordChar c = true)
    (hk : k < (splitNl doc).length)
    (hst : st.isProcessing (storeKey file name) = false) :
    ∃ s e,
      getFunctionMarkerRange (runFunction doc st file name k true true true ai).doc
          name.data = some (s, e) ∧
      joinNl (innerLines (extractText
          (runFunction doc st file name k true true true ai).doc s e))
        = indentOf doc k ++ (askAIForFunctionCall name ai).data ∧
      ((name ++ "(").data <:+: (askAIForFunctionCall name ai).data) ∧
      ("/*".data <:+: (askAIForFunctionCall name ai).data) ∧
      (runFunction doc st file name k true true true ai).store.isProcessing
        (storeKey file name) = false ∧
      (runFunction doc st file name k true true true ai).notices.length = 1 := by
  rw [runFunction_generate_insert hdoc hst]
  have hcode : Clean (askAIForFunctionCall name ai).data := by
    rcases hai with rfl | rfl | rfl
    · exact @clean_fallback _ _ name (by decide) (by decide) hname
    · exact @clean_fallback _ _ name (by decide) (by decide) hname
    · exact @clean_fallback _ _ name (by decide) (by decide) hname
  rcases @insert_region_lookup _ _ _ _ ((askAIForFunctionCall name ai).data)
    hdoc hcode (indentOf_ws doc k) (lineStartOffset_le hk) with ⟨h1, h2⟩
  refine ⟨_, _, h1, ?_, ?_, ?_, ?_, ?_⟩
  · rw [h2, innerLines_regionCore hname (indentOf_no_nl doc k), joinNl_splitNl]
  · have hnp : (name ++ "(").data = name.data ++ ['('] := by
      rw [String.data_append]
    have hinf : ∀ (pre tail : Text),
        (name.data ++ ['(']) <:+: pre ++ name.data ++ '(' :: tail :=
      fun pre tail => ⟨pre, tail, by simp [List.append_assoc]⟩
    rcases hai with rfl | rfl | rfl
    · have hdata : (askAIForFunctionCall name .missingKey).data
          = "(async () => \x7b console.log(await ".data ++ name.data
              ++ '(' :: "/* OpenAI API key not provided */)); \x7d)();".data := by
        show ("(async () => \x7b console.log(await " ++ name
            ++ "(/* OpenAI API key not provided */)); \x7d)();").data = _
        rw [String.data_append, String.data_append]
      rw [hnp, hdata]
      exact hinf _ _
    · have hdata : (askAIForFunctionCall name .noContent).data
          = "(async () => \x7b console.log(await ".data ++ name.data
              ++ '(' :: "/* AI failed to generate params */)); \x7d)();".data := by
        show ("(async () => \x7b console.log(await " ++ name
            ++ "(/* AI failed to generate params */)); \x7d)();").data = _
        rw [String.data_append, String.data_append]
      rw [hnp, hdata]
      exact hinf _ _
    · have hdata : (askAIForFunctionCall name .unparsable).data
          = "(async () => \x7b console.log(await ".data ++ name.data
              ++ '(' :: "/* Error parsing AI response */)); \x7d)();".data := by
        show ("(async () => \x7b console.log(await " ++ name
            ++ "(/* Error parsing AI response */)); \x7d)();").data = _
        rw [String.data_append, String.data_append]
      rw [hnp, hdata]
      exact hinf _ _
  · rcases hai with rfl | rfl | rfl
    · have hdata : (askAIForFunctionCall name .missingKey).data
          = "(async () => \x7b console.log(await ".data ++ name.data
              ++ '(' :: "/* OpenAI API key not provided */)); \x7d)();".data := by
        show ("(async () => \x7b console.log(await " ++ name
            ++ "(/* OpenAI API key not provided */)); \x7d)();").data = _
        rw [String.data_append, String.data_append]
      rw [hdata]
      exact (show "/*".data <:+:
          ('(' :: "/* OpenAI API key not provided */)); \x7d)();".data) by decide).trans
        ((List.suffix_append _ _).isInfix)
    · have hdata : (askAIForFunctionCall name .noContent).data
          = "(async () => \x7b console.log(await ".data ++ name.data
              ++ '(' :: "/* AI failed to generate params */)); \x7d)();".data := by
        show ("(async () => \x7b console.log(await " ++ name
            ++ "(/* AI failed to generate params */)); \x7d)();").data = _
        rw [String.data_append, String.data_append]
      rw [hdata]
      exact (show "/*".data <:+:
          ('(' :: "/* AI failed to generate params */)); \x7d)();".data) by decide).trans
        ((List.suffix_append _ _).isInfix)
    · have hdata : (askAIForFunctionCall name .unparsable).data
          = "(async () => \x7b console.log(await ".data ++ name.data
              ++ '(' :: "/* Error parsing AI response */)); \x7d)();".data := by
        show ("(async () => \x7b console.log(await " ++ name
            ++ "(/* Error parsing AI response */)); \x7d)();").data = _
        rw [String.data_append, String.data_append]
      rw [hdata]
      exact (show "/*".data <:+:
          ('(' :: "/* Error parsing AI response */)); \x7d)();".data) by decide).trans
        ((List.suffix_append _ _).isInfix)
  · exact clears_A hst
  · rfl


/-- Witness for C5 (amended) at a concrete missing-credential failure. -/
theorem generator_failure_fallback_region_witness :
    (Clean "function foo() \x7b\x7d".data ∧
      (∀ c ∈ ("foo".data : Text), isWordChar c = true) ∧
      0 < (splitNl "function foo() \x7b\x7d".data).length ∧
      Store.isProcessing ⟨[], [], []⟩ (storeKey "a.ts" "foo") = false) ∧
    (∃ s e,
      getFunctionMarkerRange (runFunction "function foo() \x7b\x7d".data ⟨[], [], []⟩
          "a.ts" "foo" 0 true true true .missingKey).doc "foo".data = some (s, e) ∧
      joinNl (innerLines (extractText
          (runFunction "function foo() \x7b\x7d".data ⟨[], [], []⟩
            "a.ts" "foo" 0 true true true .missingKey).doc s e))
        = indentOf "function foo() \x7b\x7d".data 0
            ++ (askAIForFunctionCall "foo" .missingKey).data ∧
      (("foo" ++ "(").data <:+: (askAIForFunctionCall "foo" .missingKey).data) ∧
      ("/*".data <:+: (askAIForFunctionCall "foo" .missingKey).data) ∧
      (runFunction "function foo() \x7b\x7d".data ⟨[], [], []⟩
          "a.ts" "foo" 0 true true true .missingKey).store.isProcessing
        (storeKey "a.ts" "foo") = false ∧
      (runFunction "function foo() \x7b\x7d".data ⟨[], [], []⟩
          "a.ts" "foo" 0 true true true .missingKey).notices.length = 1) :=
  ⟨⟨by decide, by decide, by decide, by decide⟩,
    generator_failure_fallback_region _ _ _ _ _ _ (Or.inl rfl)
      (by decide) (by decide) (by decide) (by decide)⟩


theorem asString_data (s : String) : s.data.asString = s := rfl

theorem take_at_region (A indent1 rc B : Text) :
    (A ++ indent1 ++ rc ++ B).take (A.length + indent1.length) = A ++ indent1 := by
  rw [List.append_assoc (A ++ indent1)]
  exact take_len_append (by simp)

theorem drop_at_region_end (A indent1 rc B : Text) :
    (A ++ indent1 ++ rc ++ B).drop (A.length + indent1.length + rc.length) = B :=
  drop_len_append (by simp [List.length_append]; omega)

theorem commented_lines_all_commented {mid : Text} (hmid : Clean mid) :
    ((splitNl (commentText mid)).filter (fun l => !isBlank l)).all
      (fun l => "//".data.isPrefixOf (trimStart l)) = true := by
  rw [splitNl_commentText, List.all_eq_true]
  intro l' hl'
  rcases List.mem_filter.mp hl' with ⟨hmem, hnb⟩
  rcases List.mem_map.mp hmem with ⟨l, hl, rfl⟩
  cases hsk : skipCommentLine l with
  | false =>
    rw [trimStart_commentLine_content hsk]
    exact List.isPrefixOf_iff_prefix.mpr ⟨' ' :: l.dropWhile isWsChar, rfl⟩
  | true =>
    rw [commentLine_skip hsk] at hnb ⊢
    have hcl := clean_of_mem_splitNl hmid hl
    unfold skipCommentLine at hsk
    rw [containsSub_startCore_of_clean hcl, containsSub_endCore_of_clean hcl] at hsk
    simp only [Bool.false_or] at hsk
    rcases Bool.or_eq_true_iff.mp hsk with hpre | hbl
    · exact hpre
    · rw [hbl] at hnb
      cases hnb

theorem erase_executed_not_contains {st : Store} {key : String}
    (hnodup : st.executed.Nodup) :
    (st.executed.erase key).contains key = false := by
  cases hc : (st.executed.erase key).contains key with
  | false => rfl
  | true =>
    exfalso
    have hmem : key ∈ st.executed.erase key := by
      have := hc
      simp at this
      exact this
    rw [hnodup.mem_erase_iff] at hmem
    exact hmem.1 rfl

/-- C6: on a document holding exactly one tagged region for `name`, not fully
commented, invoking the stop-all command invokes the Runner stop action
exactly once, clears the function's executed flag, and leaves the region's
body fully commented (the body-commented predicate holds on the resulting
document). -/
theorem stopQuokka_comments_and_clears (A indent1 mid indent2 B : Text)
    (name file : String) (st : Store)
    (hA : Clean A) (hmid : Clean mid) (hB : Clean B)
    (hw1 : ∀ c ∈ indent1, isWsChar c = true)
    (hw2 : ∀ c ∈ indent2, isWsChar c = true)
    (hi2 : '\n' ∉ indent2)
    (hname : ∀ c ∈ name.data, isWordChar c = true) (hnn : name.data ≠ [])
    (hBws : B = [] ∨ ∃ c B2, B = c :: B2 ∧ isWsChar c = true)
    (hnotcom : regionFullyCommented (regionCore name.data mid indent2) = false)
    (hnodup : st.executed.Nodup)
    (_hexec : st.hasBeenExecuted (storeKey file name) = true) :
    (stopQuokka (A ++ indent1 ++ regionCore name.data mid indent2 ++ B)
        st file).runnerStops = 1 ∧
    (stopQuokka (A ++ indent1 ++ regionCore name.data mid indent2 ++ B)
        st file).store.hasBeenExecuted (storeKey file name) = false ∧
    isCodeCommented (stopQuokka (A ++ indent1 ++ regionCore name.data mid indent2 ++ B)
        st file).doc name.data = true := by
  have hranges := @getAllMarkerRanges_canonical _ _ (name.data) mid _ _
    hA hmid hB hw1 hw2 hname hBws
  have hextract := @extractText_canonical A indent1 (name.data) mid indent2 B
  have hres : stopQuokka (A ++ indent1 ++ regionCore name.data mid indent2 ++ B) st file
      = ⟨A ++ indent1 ++ regionCore name.data (commentText mid) indent2 ++ B,
          (st.markCommented (storeKey file name) true).removeFromExecuted
            (storeKey file name),
          ["Commented out " ++ toString (1 : Nat) ++ " generated code blocks",
            "Stopped all Quokka sessions"],
          0, 1⟩ := by
    unfold stopQuokka
    rw [hranges]
    dsimp only [List.foldl_cons, List.foldl_nil]
    rw [hextract, hnotcom]
    rw [if_neg (by simp)]
    rw [getFunctionNameFromMarker_regionCore hname hnn]
    dsimp only
    rw [asString_data]
    dsimp only [List.foldr_cons, List.foldr_nil, List.nil_append]
    rw [take_at_region, drop_at_region_end, commentText_regionCore hname hi2]
    simp [List.append_assoc]
  rw [hres]
  refine ⟨rfl, ?_, ?_⟩
  · exact erase_executed_not_contains hnodup
  · rw [isCodeCommented_canonical hA (clean_commentText hmid) hw1 hw2 hname hi2]
    exact commented_lines_all_commented hmid


/-- Witness for C6 on a concrete one-region document. -/
theorem stopQuokka_comments_and_clears_witness :
    (Clean ([] : Text) ∧ Clean "foo(1)".data ∧ Clean ([] : Text) ∧
      '\n' ∉ ([] : Text) ∧
      (∀ c ∈ ("foo".data : Text), isWordChar c = true) ∧ ("foo".data : Text) ≠ [] ∧
      regionFullyCommented (regionCore "foo".data "foo(1)".data []) = false ∧
      (Store.executed ⟨[], ["a.ts|foo"], []⟩).Nodup ∧
      Store.hasBeenExecuted ⟨[], ["a.ts|foo"], []⟩ (storeKey "a.ts" "foo") = true) ∧
    ((stopQuokka ([] ++ [] ++ regionCore "foo".data "foo(1)".data [] ++ ['\n'])
        ⟨[], ["a.ts|foo"], []⟩ "a.ts").runnerStops = 1 ∧
      (stopQuokka ([] ++ [] ++ regionCore "foo".data "foo(1)".data [] ++ ['\n'])
        ⟨[], ["a.ts|foo"], []⟩ "a.ts").store.hasBeenExecuted (storeKey "a.ts" "foo")
        = false ∧
      isCodeCommented (stopQuokka ([] ++ [] ++ regionCore "foo".data "foo(1)".data []
          ++ ['\n']) ⟨[], ["a.ts|foo"], []⟩ "a.ts").doc "foo".data = true) :=
  ⟨⟨by decide, by decide, by decide, by decide, by decide, by decide, by decide,
      by decide, by decide⟩,
    stopQuokka_comments_and_clears [] [] "foo(1)".data [] ['\n'] "foo" "a.ts"
      ⟨[], ["a.ts|foo"], []⟩ (by decide) (by decide) (by decide)
      (by intro c hc; cases hc) (by intro c hc; cases hc) (by decide)
      (by decide) (by decide) (Or.inr ⟨'\n', [], rfl, by decide⟩)
      (by decide) (by decide) (by decide)⟩


/-- C8: on a document holding a tagged region for `name` over marker-free
surroundings (the region followed by a line break), after the remove command
completes, looking up a region for `name` returns none and the function's
Region Store entry reports not-executed. -/
theorem remove_clears_region_and_executed (A indent1 mid indent2 B2 : Text)
    (name file : String) (st : Store)
    (hA : Clean A) (hmid : Clean mid) (hB : Clean B2)
    (hw1 : ∀ c ∈ indent1, isWsChar c = true)
    (hw2 : ∀ c ∈ indent2, isWsChar c = true)
    (hnodup : st.executed.Nodup) :
    getFunctionMarkerRange
        (removeGeneratedCode
          (A ++ indent1 ++ regionCore name.data mid indent2 ++ ('\n' :: B2))
          st file name).doc name.data = none ∧
    (removeGeneratedCode
        (A ++ indent1 ++ regionCore name.data mid indent2 ++ ('\n' :: B2))
        st file name).store.hasBeenExecuted (storeKey file name) = false := by
  have hrange := @getFunctionMarkerRange_canonical _ _ (name.data) mid _
    ('\n' :: B2) hA hmid hw1 hw2
  have hclean : Clean (A ++ indent1 ++ ('\n' :: B2)) := by
    have h1 : A ++ indent1 ++ ('\n' :: B2) = A ++ (indent1 ++ ['\n']) ++ B2 := by
      simp [List.append_assoc]
    rw [h1]
    exact clean_sandwich hA hB
      (by intro c hc
          rcases List.mem_append.mp hc with h2 | h2
          · exact hw1 c h2
          · rcases List.mem_singleton.mp h2 with rfl
            simp [isWsChar])
      (by simp)
  have hres : removeGeneratedCode
      (A ++ indent1 ++ regionCore name.data mid indent2 ++ ('\n' :: B2)) st file name
      = ⟨A ++ indent1 ++ ('\n' :: B2),
          st.removeFromExecuted (storeKey file name),
          ["Removed generated code for " ++ name, "Stopped all Quokka sessions"],
          0, 1⟩ := by
    unfold removeGeneratedCode
    rw [hrange]
    dsimp only
    rw [take_at_region, drop_at_region_end]
    unfold stopQuokka
    rw [getAllMarkerRanges_clean hclean]
    dsimp only [List.foldl_nil, List.foldr_nil, List.isEmpty_nil]
    rw [if_pos rfl]
    rfl
  rw [hres]
  exact ⟨getFunctionMarkerRange_clean hclean, erase_executed_not_contains hnodup⟩

/-- Witness for C8 on a concrete one-region document. -/
theorem remove_clears_region_and_executed_witness :
    (Clean ([] : Text) ∧ Clean "foo(1)".data ∧
      (Store.executed ⟨[], ["a.ts|foo"], []⟩).Nodup) ∧
    (getFunctionMarkerRange
        (removeGeneratedCode
          ([] ++ [] ++ regionCore "foo".data "foo(1)".data [] ++ ('\n' :: []))
          ⟨[], ["a.ts|foo"], []⟩ "a.ts" "foo").doc "foo".data = none ∧
      (removeGeneratedCode
          ([] ++ [] ++ regionCore "foo".data "foo(1)".data [] ++ ('\n' :: []))
          ⟨[], ["a.ts|foo"], []⟩ "a.ts" "foo").store.hasBeenExecuted
        (storeKey "a.ts" "foo") = false) :=
  ⟨⟨by decide, by decide, by decide⟩,
    remove_clears_region_and_executed [] [] "foo(1)".data [] [] "foo" "a.ts"
      ⟨[], ["a.ts|foo"], []⟩ (by decide) (by decide) (by decide)
      (by intro c hc; cases hc) (by intro c hc; cases hc) (by decide)⟩

end FnRun
